import Mathlib

/-!
Verification of the binary table-conversion engine in
fontTools/ttLib/tables/otConverters.py: shallow embedding of the field
converters (offset tables, length-prefixed structs, Version, DeltaValue,
VarIdxMapValue, AAT lookup format selection, STX entry deduplication,
lazy arrays) and proofs about them.

The abstract Writer sink of the source emits big-endian bytes; we model a
byte as a Nat (reduced mod 256 at serialization time) and a byte string as
List Nat.  A table writer produces a list of items (byte strings) that are
concatenated into the final data.  Definitions are transcribed from the
source; where a helper lives outside the embedded file its definition is
modelled from the spec and marked as such.
-/

namespace OtConv

/-- Big-endian serialization of a value into a fixed number of bytes,
most significant byte first (the shape shared by writeUInt8, writeUShort,
writeUInt24, writeULong of the abstract Writer). -/
def beBytes : Nat → Nat → List Nat
  | 0, _ => []
  | w + 1, v => beBytes w (v / 256) ++ [v % 256]

/-- Big-endian deserialization of a byte string (readUInt8, readUShort,
readUInt24, readULong of the abstract Reader). -/
def beRead (bs : List Nat) : Nat := bs.foldl (fun acc b => acc * 256 + b) 0

/-- Total byte length of a writer's item list (OTTableWriter.getDataLength
for items that are plain byte strings). -/
def itemsLen (items : List (List Nat)) : Nat := (items.map List.length).sum

/-! ### Offset-addressed table converters (classes Table and LTable)

Table has longOffset = False and staticSize 2; LTable has longOffset =
True and staticSize 4.  We parameterize by the longOffset flag.  The
sub-table decode (tableClass().decompile via getSubReader) is abstracted
as a function from the non-zero offset to the decoded table; Table.read
applies it only when the offset is non-zero. -/

namespace TableConv

/-- Declared width of the offset field: 4 bytes for the long variant,
2 bytes otherwise (the staticSize of Table and LTable). -/
def offsetWidth (longOffset : Bool) : Nat := if longOffset then 4 else 2

/-- Table.readOffset / LTable.readOffset: read a big-endian offset of the
declared width from the front of the buffer. -/
def readOffset (longOffset : Bool) (bs : List Nat) : Nat :=
  beRead (bs.take (offsetWidth longOffset))

/-- Table.read: read the offset; 0 yields None without building a
sub-reader or invoking the sub-table decoder; a non-zero offset decodes
the target at that offset. -/
def read {α : Type} (longOffset : Bool) (bs : List Nat)
    (decodeSub : Nat → α) : Option α :=
  let offset := readOffset longOffset bs
  if offset = 0 then none else some (decodeSub offset)

/-- Table.writeNullOffset: a single all-zero offset of the declared
width. -/
def writeNullOffset (longOffset : Bool) : List Nat :=
  if longOffset then beBytes 4 0 else beBytes 2 0

/-- Table.write: None emits only the null offset; a present value is
handed to the deferred sub-writer machinery, abstracted here as the bytes
the sink will later splice in for it. -/
def write {α : Type} (longOffset : Bool) (subTableBytes : α → List Nat) :
    Option α → List Nat
  | none => writeNullOffset longOffset
  | some v => subTableBytes v

end TableConv

/-! ### The Version converter -/

/-- Two's-complement interpretation of a 32-bit quantity, as produced by
the abstract Reader's readLong. -/
def toSigned32 (n : Nat) : Int :=
  if n < 2 ^ 31 then (n : Int) else (n : Int) - 2 ^ 32

/-- Modelled from the spec: fontTools.misc.fixedTools.ensureVersionIsLong
(imported as fi2ve) is not part of src/.  Per the spec, a Version value is
a versioned 16.16 fixed-point number: a value already in long 16.16 form
(at least 0x10000) is kept unchanged, while a bare major version below
0x10000 is scaled by 65536 into 16.16 form. -/
def fi2ve (v : Nat) : Nat := if v < 65536 then v * 65536 else v

namespace Version

/-- Version.read: read a signed 32-bit value and assert that its
arithmetic right shift by 16 (Python value >> 16, i.e. floor division by
65536) equals 1; assertion failure aborts the decode (None). -/
def read (bs : List Nat) : Option Int :=
  let v := toSigned32 (beRead (bs.take 4))
  if Int.fdiv v 65536 = 1 then some v else none

/-- Version.write: normalize via fi2ve, assert the upper 16 bits equal 1,
then write the normalized value as a 32-bit word; assertion failure
aborts the encode (None). -/
def write (v : Nat) : Option (List Nat) :=
  let v2 := fi2ve v
  if v2 / 65536 = 1 then some (beBytes 4 v2) else none

end Version

/-! ### StructWithLength

A struct with a StructLength field is modelled by the writer items its
converters emit: the items before the length field (including the
implicit Format item of a FormatSwitchingBaseTable, so that
preItems.length is exactly the lengthIndex offset computed by the
source), the length field itself (emitted as conv.write of the current
StructLength value, a big-endian integer of the converter's staticSize),
and the items after it. -/

structure LengthStruct where
  preItems : List (List Nat)
  lenSize : Nat
  postItems : List (List Nat)

namespace StructWithLength

/-- value.compile(writer, font): the items appended to the writer when
the struct is compiled with the given StructLength field value. -/
def compile (s : LengthStruct) (structLength : Nat) : List (List Nat) :=
  s.preItems ++ [beBytes s.lenSize structLength] ++ s.postItems

/-- The sentinel value keyed by the length converter's staticSize
(the dict {1: 0xDE, 2: 0xDEAD, 4: 0xDEADBEEF}; other sizes raise). -/
def deadbeef : Nat → Option Nat
  | 1 => some 0xDE
  | 2 => some 0xDEAD
  | 4 => some 0xDEADBEEF
  | _ => none

/-- The expected placeholder bytes: the first staticSize bytes of
de ad be ef. -/
def sentinel (w : Nat) : List Nat := [0xDE, 0xAD, 0xBE, 0xEF].take w

/-- StructWithLength.write: compute lengthIndex, compile the struct with
the sentinel in the length field, measure the emitted byte count,
re-serialize the length field with the true length, check that the item
at lengthIndex still holds the reserved sentinel bytes, and backpatch it;
a sentinel mismatch is a fatal assertion (None). -/
def write (writerItems : List (List Nat)) (s : LengthStruct) :
    Option (List (List Nat)) :=
  match deadbeef s.lenSize with
  | none => none
  | some dead =>
    let lengthIndex := writerItems.length + s.preItems.length
    let before := itemsLen writerItems
    let items1 := writerItems ++ compile s dead
    let length := itemsLen items1 - before
    if items1.getD lengthIndex [] = sentinel s.lenSize then
      some (items1.set lengthIndex (beBytes s.lenSize length))
    else
      none

/-- The byte count emitted by compiling the struct (independent of the
value held by the length field, whose serialized width is always
lenSize). -/
def structSize (s : LengthStruct) : Nat :=
  itemsLen s.preItems + s.lenSize + itemsLen s.postItems

end StructWithLength

/-! ### VarIdxMapValue -/

namespace VarIdxMap

/-- innerBits = 1 + (EntryFormat & 0x000F). -/
def innerBits (fmt : Nat) : Nat := 1 + (fmt &&& 0x000F)

/-- innerMask = (1 << innerBits) - 1. -/
def innerMask (fmt : Nat) : Nat := (1 <<< innerBits fmt) - 1

/-- outerMask = 0xFFFFFFFF - innerMask. -/
def outerMask (fmt : Nat) : Nat := 0xFFFFFFFF - innerMask fmt

/-- outerShift = 16 - innerBits. -/
def outerShift (fmt : Nat) : Nat := 16 - innerBits fmt

/-- entrySize = 1 + ((EntryFormat & 0x0030) >> 4). -/
def entrySize (fmt : Nat) : Nat := 1 + ((fmt &&& 0x0030) >>> 4)

/-- The raw on-disk entry for one index:
raw = ((idx & 0xFFFF0000) >> outerShift) | (idx & innerMask). -/
def rawOfIdx (fmt idx : Nat) : Nat :=
  ((idx &&& 0xFFFF0000) >>> outerShift fmt) ||| (idx &&& innerMask fmt)

/-- The index reconstructed from a raw entry:
idx = ((raw & outerMask) << outerShift) | (raw & innerMask). -/
def idxOfRaw (fmt raw : Nat) : Nat :=
  ((raw &&& outerMask fmt) <<< outerShift fmt) ||| (raw &&& innerMask fmt)

/-- VarIdxMapValue.write: sets the sibling MappingCount to the mapping
length, then writes each index as one raw entry of entrySize bytes. -/
def write (fmt : Nat) (mapping : List Nat) : Nat × List Nat :=
  (mapping.length,
   (mapping.map (fun idx => beBytes (entrySize fmt) (rawOfIdx fmt idx))).flatten)

/-- Sequentially read nItems fixed-size big-endian entries. -/
def readEntries : Nat → Nat → List Nat → List Nat
  | 0, _, _ => []
  | n + 1, es, bs => beRead (bs.take es) :: readEntries n es (bs.drop es)

/-- VarIdxMapValue.read: read MappingCount raw entries of entrySize bytes
and reconstruct each index. -/
def read (fmt nItems : Nat) (bs : List Nat) : List Nat :=
  (readEntries nItems (entrySize fmt) bs).map (idxOfRaw fmt)

end VarIdxMap

/-! ### DeltaValue -/

namespace Delta

/-- Sign decode over the n-bit field:
if value & signMask: value = value - minusOffset. -/
def decodeSigned (nBits value : Nat) : Int :=
  if value &&& (1 <<< (nBits - 1)) ≠ 0 then
    (value : Int) - ((1 <<< nBits : Nat) : Int)
  else
    (value : Int)

/-- The encode loop of DeltaValue.write: tmp, shift = 0, 16; for each
value, shift -= nBits, or the masked value into tmp at shift; emit the
16-bit word when shift reaches 0; after the loop emit the final partial
word if any. -/
def writeLoop (nBits : Nat) : List Int → Nat → Nat → List Nat
  | [], tmp, shift => if shift ≠ 16 then [tmp] else []
  | v :: vs, tmp, shift =>
    let shift2 := shift - nBits
    let tmp2 := tmp ||| ((v % ((2 : Int) ^ nBits)).toNat <<< shift2)
    if shift2 = 0 then tmp2 :: writeLoop nBits vs 0 16
    else writeLoop nBits vs tmp2 shift2

/-- DeltaValue.write: DeltaFormat must be 1, 2 or 3 and the list must
hold exactly EndSize - StartSize + 1 values (both asserted); the values
are packed MSB-first into 16-bit words. -/
def write (startSize endSize deltaFormat : Nat) (values : List Int) :
    Option (List Nat) :=
  if deltaFormat = 1 ∨ deltaFormat = 2 ∨ deltaFormat = 3 then
    if values.length = endSize - startSize + 1 then
      some (writeLoop (1 <<< deltaFormat) values 0 16)
    else none
  else none

/-- The decode loop of DeltaValue.read: tmp, shift = 0, 0; for each of
nItems values, refill tmp from the next 16-bit word when shift is 0,
then extract the next nBits field and sign-decode it.  (Reading past the
end of the stream would abort the decode in the source; here the loop
just stops, and the round-trip theorems never reach that case.) -/
def readLoop (nBits : Nat) : Nat → List Nat → Nat → Nat → List Int
  | 0, _, _, _ => []
  | n + 1, words, tmp, shift =>
    if shift = 0 then
      match words with
      | [] => []
      | w :: ws =>
        let shift2 := 16 - nBits
        let value := (w >>> shift2) &&& ((1 <<< nBits) - 1)
        decodeSigned nBits value :: readLoop nBits n ws w shift2
    else
      let shift2 := shift - nBits
      let value := (tmp >>> shift2) &&& ((1 <<< nBits) - 1)
      decodeSigned nBits value :: readLoop nBits n words tmp shift2

/-- DeltaValue.read: DeltaFormat must be 1, 2 or 3 (asserted);
EndSize - StartSize + 1 values are unpacked from the 16-bit words. -/
def read (startSize endSize deltaFormat : Nat) (words : List Nat) :
    Option (List Int) :=
  if deltaFormat = 1 ∨ deltaFormat = 2 ∨ deltaFormat = 3 then
    some (readLoop (1 <<< deltaFormat) (endSize - startSize + 1) words 0 0)
  else none

/-- Proof-layer word builder: pack a group of values into one 16-bit
word, the first value in the topmost nBits below the given bit
position. -/
def packGroup (nBits : Nat) : List Int → Nat → Nat
  | [], _ => 0
  | v :: vs, shift =>
    ((v % ((2 : Int) ^ nBits)).toNat <<< (shift - nBits)) |||
      packGroup nBits vs (shift - nBits)

/-- Proof-layer reformulation of the encode loop: the words are the
packGroups of consecutive chunks of 16 / nBits values. -/
def chunksWords (nBits : Nat) (values : List Int) : List Nat :=
  if values.isEmpty then []
  else if h : 16 / nBits = 0 then []
  else
    packGroup nBits (values.take (16 / nBits)) 16 ::
      chunksWords nBits (values.drop (16 / nBits))
termination_by values.length
decreasing_by
  rename_i hne
  simp only [List.isEmpty_eq_true] at hne
  have h1 : values.length ≠ 0 := fun hl => hne (List.eq_nil_of_length_eq_zero hl)
  have h2 : 0 < 16 / nBits := Nat.pos_of_ne_zero h
  simp only [List.length_drop]
  omega

/-- Proof-layer word reader: the values held in one 16-bit word,
top-down. -/
def unpackWord (nBits w : Nat) : List Int :=
  (List.range (16 / nBits)).map
    (fun i => decodeSigned nBits ((w >>> (16 - nBits * (i + 1))) &&& ((1 <<< nBits) - 1)))

end Delta

/-! ### AATLookup -/

namespace AATLookup

def BIN_SEARCH_HEADER_SIZE : Nat := 10

/-- Modelled from the spec: fontTools.ttLib.getSearchRange is not part of
src/; the spec prescribes the standard power-of-two search-range
construction: entrySelector = floor(log2 numUnits), searchRange =
itemSize * 2^entrySelector, rangeShift = numUnits*itemSize -
searchRange. -/
def getSearchRange (n itemSize : Nat) : Nat × Nat × Nat :=
  let entrySelector := Nat.log2 n
  let searchRange := itemSize * (1 <<< entrySelector)
  (searchRange, entrySelector, n * itemSize - searchRange)

/-- AATLookup.writeBinSearchHeader: five 16-bit words. -/
def writeBinSearchHeader (numUnits unitSize : Nat) : List Nat :=
  let sr := getSearchRange numUnits unitSize
  beBytes 2 unitSize ++ beBytes 2 numUnits ++
    beBytes 2 sr.1 ++ beBytes 2 sr.2.1 ++ beBytes 2 sr.2.2

/-- The segment-merging loop of buildFormat2, started from values[0]:
adjacent glyphs with equal values extend the open segment, anything else
closes it; the open segment is closed at the end. -/
def buildSegmentsGo (segStart segEnd segValue : Nat) :
    List (Nat × Nat) → List (Nat × Nat × Nat)
  | [] => [(segStart, segEnd, segValue)]
  | (glyphID, curValue) :: rest =>
    if glyphID ≠ segEnd + 1 ∨ curValue ≠ segValue then
      (segStart, segEnd, segValue) :: buildSegmentsGo glyphID glyphID curValue rest
    else
      buildSegmentsGo segStart glyphID segValue rest

/-- The segments of a non-empty sorted value list. -/
def segmentsOf (v0 : Nat × Nat) (rest : List (Nat × Nat)) :
    List (Nat × Nat × Nat) :=
  buildSegmentsGo v0.1 v0.1 v0.2 rest

/-- AATLookup.buildFormat0: candidate only when the mapping covers every
glyph of the font; claimed size 2 + numGlyphs * valueSize. -/
def buildFormat0 (numGlyphs valueSize : Nat) (values : List (Nat × Nat)) :
    Option (Nat × Nat) :=
  if values.length = numGlyphs then some (2 + numGlyphs * valueSize, 0) else none

/-- AATLookup.buildFormat2: indexes values[0] unconditionally (an empty
mapping raises, modelled as the error case); claimed size
2 + 10 + (numSegments + 1) * (valueSize + 4). -/
def buildFormat2 (valueSize : Nat) (values : List (Nat × Nat)) :
    Except Unit (Option (Nat × Nat)) :=
  match values with
  | [] => .error ()
  | v0 :: rest =>
    let segments := segmentsOf v0 rest
    .ok (some (2 + BIN_SEARCH_HEADER_SIZE + (segments.length + 1) * (valueSize + 4), 2))

/-- AATLookup.buildFormat6: always a candidate; claimed size
2 + 10 + (numUnits + 1) * (valueSize + 2). -/
def buildFormat6 (valueSize : Nat) (values : List (Nat × Nat)) :
    Option (Nat × Nat) :=
  some (2 + BIN_SEARCH_HEADER_SIZE + (values.length + 1) * (valueSize + 2), 6)

/-- AATLookup.buildFormat8: indexes values[0] and values[-1] (an empty
mapping raises); candidate only when the glyph IDs form one contiguous
run; claimed size 6 + len(values) * valueSize. -/
def buildFormat8 (valueSize : Nat) (values : List (Nat × Nat)) :
    Except Unit (Option (Nat × Nat)) :=
  match values with
  | [] => .error ()
  | v0 :: rest =>
    let minGlyphID := v0.1
    let maxGlyphID := (rest.getLastD v0).1
    if (v0 :: rest).length = maxGlyphID - minGlyphID + 1 then
      .ok (some (6 + (v0 :: rest).length * valueSize, 8))
    else
      .ok none

/-- AATLookup.writeFormat0. -/
def writeFormat0 (convWrite : Nat → List Nat) (values : List (Nat × Nat)) :
    List Nat :=
  beBytes 2 0 ++ (values.map (fun gv => convWrite gv.2)).flatten

/-- AATLookup.writeFormat2: format word, binary-search header over
len(segments) units, one unit (last, first, value) per segment, then the
0xFFFF,0xFFFF sentinel unit with a zero value. -/
def writeFormat2 (valueSize : Nat) (convWrite : Nat → List Nat)
    (segments : List (Nat × Nat × Nat)) : List Nat :=
  beBytes 2 2 ++ writeBinSearchHeader segments.length (valueSize + 4) ++
    (segments.map
      (fun s => beBytes 2 s.2.1 ++ beBytes 2 s.1 ++ convWrite s.2.2)).flatten ++
    beBytes 2 0xFFFF ++ beBytes 2 0xFFFF ++ List.replicate valueSize 0

/-- AATLookup.writeFormat6: format word, binary-search header over
len(values) units, one (glyphID, value) unit per entry, then the 0xFFFF
sentinel with a zero value. -/
def writeFormat6 (valueSize : Nat) (convWrite : Nat → List Nat)
    (values : List (Nat × Nat)) : List Nat :=
  beBytes 2 6 ++ writeBinSearchHeader values.length (valueSize + 2) ++
    (values.map (fun gv => beBytes 2 gv.1 ++ convWrite gv.2)).flatten ++
    beBytes 2 0xFFFF ++ List.replicate valueSize 0

/-- AATLookup.writeFormat8: format word, first glyph ID, count, then the
values in glyph order. -/
def writeFormat8 (convWrite : Nat → List Nat) (values : List (Nat × Nat)) :
    List Nat :=
  beBytes 2 8 ++ beBytes 2 (values.headD (0, 0)).1 ++
    beBytes 2 values.length ++ (values.map (fun gv => convWrite gv.2)).flatten

/-- The write method selected for the chosen format. -/
def writeChosen (valueSize : Nat) (convWrite : Nat → List Nat)
    (values : List (Nat × Nat)) : Nat → List Nat
  | 0 => writeFormat0 convWrite values
  | 2 => writeFormat2 valueSize convWrite
          (match values with
           | [] => []
           | v0 :: rest => segmentsOf v0 rest)
  | 6 => writeFormat6 valueSize convWrite values
  | _ => writeFormat8 convWrite values

/-- The first element of Python sorted(...) over (size, format) pairs:
the lexicographic minimum. -/
def chooseMin : List (Nat × Nat) → Option (Nat × Nat)
  | [] => none
  | c :: cs =>
    some (cs.foldl
      (fun best x =>
        if x.1 < best.1 || (x.1 = best.1 && x.2 < best.2) then x else best)
      c)

/-- The candidate list of AATLookup.write: the four builders evaluated
in order (formats 0, 2, 6, 8; never 4) with the None entries dropped
(Python filter(None, ...)); a builder crash propagates. -/
def candidates (numGlyphs valueSize : Nat) (values : List (Nat × Nat)) :
    Except Unit (List (Nat × Nat)) := do
  let c2 ← buildFormat2 valueSize values
  let c8 ← buildFormat8 valueSize values
  .ok ([buildFormat0 numGlyphs valueSize values, c2,
        buildFormat6 valueSize values, c8].filterMap id)

/-- AATLookup.write over the sorted (glyphID, value) item list of the
mapping: evaluate the candidates, choose the (size, format) minimum,
emit with the chosen write method, and assert that the emitted byte
count equals the claimed size.  A builder crash (empty mapping) or a
failed size assertion aborts the encode (None). -/
def write (numGlyphs valueSize : Nat) (convWrite : Nat → List Nat)
    (values : List (Nat × Nat)) : Option (Nat × Nat × List Nat) :=
  match candidates numGlyphs valueSize values with
  | .error _ => none
  | .ok cands =>
    match chooseMin cands with
    | none => none
    | some (dataSize, lookupFormat) =>
      let data := writeChosen valueSize convWrite values lookupFormat
      if data.length = dataSize then some (dataSize, lookupFormat, data)
      else none

/-- AATLookup.readFormat6 for the trivial empty table: a table with
numUnits = 0 decodes to the empty mapping (no units are visited).  We
model only the unit-count-zero slice needed to show the empty mapping is
a decodable wire form. -/
def readFormat6Count (numUnits : Nat) (units : List (Nat × Nat)) :
    List (Nat × Nat) :=
  (units.take numUnits).filter (fun u => u.1 ≠ 0xFFFF)

end AATLookup

/-! ### STXHeader: entry deduplication and per-glyph lookup counting -/

namespace STX

/-- One iteration of the entry-deduplication loop in STXHeader.write: the
state is (entries, entryIDs, stateArray); a compiled transition byte
string already present in the entryIDs dict reuses its index, a new one
is appended to entries and registered. -/
def dedupStep (acc : List (List Nat) × List (List Nat × Nat) × List Nat)
    (entryData : List Nat) :
    List (List Nat) × List (List Nat × Nat) × List Nat :=
  let (entries, entryIDs, stateArray) := acc
  match entryIDs.lookup entryData with
  | some entryIndex => (entries, entryIDs, stateArray ++ [entryIndex])
  | none =>
      (entries ++ [entryData], entryIDs ++ [(entryData, entries.length)],
       stateArray ++ [entries.length])

/-- The entry table and state array built by STXHeader.write from the
compiled transition bytes of every (state, class) cell, in row-major
order. -/
def buildEntries (cells : List (List Nat)) :
    List (List Nat) × List (List Nat × Nat) × List Nat :=
  cells.foldl dedupStep ([], [], [])

/-- The row-major (state, class) cell list: for each state, the compiled
transition bytes for every glyph class 0 .. glyphClassCount - 1. -/
def cellsOf (glyphClassCount : Nat) (states : List (Nat → List Nat)) :
    List (List Nat) :=
  (states.map (fun st => (List.range glyphClassCount).map st)).flatten

/-- A contextual-morph transition's two per-glyph-lookup indices. -/
structure ContextualMorphAction where
  MarkIndex : Nat
  CurrentIndex : Nat
deriving DecidableEq, Repr

/-- One transition's contribution in STXHeader._countPerGlyphLookups: a
0xFFFF index contributes nothing, any other index raises the running
maximum to index + 1. -/
def countStep (numLookups : Nat) (t : ContextualMorphAction) : Nat :=
  let n1 := if t.MarkIndex ≠ 0xFFFF then max numLookups (t.MarkIndex + 1)
            else numLookups
  if t.CurrentIndex ≠ 0xFFFF then max n1 (t.CurrentIndex + 1) else n1

/-- STXHeader._countPerGlyphLookups: the maximum per-glyph-lookup index
referenced by any transition of any state, plus one (0 when nothing is
referenced); never read from disk. -/
def countPerGlyphLookups (states : List (List ContextualMorphAction)) : Nat :=
  states.foldl (fun n st => st.foldl countStep n) 0

/-- STXHeader._compilePerGlyphLookups: asserts that the number of
per-glyph lookups attached to the table equals the count derived from
the transitions (fatal mismatch modelled as None); the actual lookup
serialization is abstracted as the list itself. -/
def compilePerGlyphLookups {α : Type}
    (states : List (List ContextualMorphAction)) (perGlyphLookups : List α) :
    Option (List α) :=
  if perGlyphLookups.length = countPerGlyphLookups states then
    some perGlyphLookups
  else none

/-- STXHeader._readPerGlyphLookups reads exactly
countPerGlyphLookups-many lookups (the count is derived from the decoded
transitions, not from the bytes): lookup i is decoded through the
abstract per-glyph decoder. -/
def readPerGlyphLookups {α : Type}
    (states : List (List ContextualMorphAction)) (decodeLookup : Nat → α) :
    List α :=
  (List.range (countPerGlyphLookups states)).map decodeLookup

end STX

/-! ### Lazy arrays (BaseConverter.readArray and _LazyList) -/

/-- An element converter as the lazy-array machinery sees it: read from
an absolute reader position, returning the value and the new position;
getRecordSize either reports a fixed per-record byte size or is
NotImplemented (none). -/
structure LazyConv (V : Type) where
  readAt : Nat → V × Nat
  recordSize : Option Nat

namespace LazyArr

/-- The eager branch of readArray: count sequential element reads,
threading the reader position. -/
def eagerLoop {V : Type} (c : LazyConv V) : Nat → Nat → List V × Nat
  | 0, pos => ([], pos)
  | n + 1, pos =>
    let r := c.readAt pos
    let rest := eagerLoop c n r.2
    (r.1 :: rest.1, rest.2)

/-- The values of the eager decode. -/
def eagerValues {V : Type} (c : LazyConv V) (count pos : Nat) : List V :=
  (eagerLoop c count pos).1

/-- A _LazyList: the captured reader position and one slot per element,
each initially the _MissingItem holding its own index. -/
structure LazyListState (V : Type) where
  pos : Nat
  data : List (Nat ⊕ V)

/-- The freshly built lazy list: data = [_MissingItem([i]) for i in
range(count)]. -/
def lazyInit (V : Type) (pos count : Nat) : LazyListState V :=
  ⟨pos, (List.range count).map Sum.inl⟩

/-- _LazyList.__getitem__ for an integer index: a missing slot seeks to
pos + storedIndex * recordSize, decodes, and memoizes; a decoded slot is
returned as is.  The third component counts the element decodes
performed (1 or 0); an out-of-range index is an error (none). -/
def getItem {V : Type} (c : LazyConv V) (recordSize : Nat)
    (st : LazyListState V) (k : Nat) :
    Option (V × LazyListState V × Nat) :=
  match st.data.get? k with
  | none => none
  | some (Sum.inl idx) =>
    let v := (c.readAt (st.pos + idx * recordSize)).1
    some (v, ⟨st.pos, st.data.set k (Sum.inr v)⟩, 1)
  | some (Sum.inr v) => some (v, st, 0)

/-- _LazyList.__getitem__ for a slice: index every position of the range
in order, threading the memoization; the result is a plain list. -/
def forceRange {V : Type} (c : LazyConv V) (recordSize : Nat)
    (st : LazyListState V) : List Nat → List V × LazyListState V
  | [] => ([], st)
  | k :: ks =>
    match getItem c recordSize st k with
    | none => ([], st)
    | some (v, st2, _) =>
      let rest := forceRange c recordSize st2 ks
      (v :: rest.1, rest.2)

/-- BaseConverter.readArray: lazy only when the font's lazy flag is set,
count exceeds 8 and the converter has a fixed record size; the lazy
branch builds the placeholder list and advances the outer reader past
count * recordSize bytes at once; otherwise count eager reads are
performed.  Returns the array value and the final reader position. -/
def readArray {V : Type} (c : LazyConv V) (lazyFont : Bool)
    (count pos : Nat) : (List V ⊕ LazyListState V) × Nat :=
  let lazy := lazyFont && decide (8 < count)
  match c.recordSize with
  | some rs =>
    if lazy then (Sum.inr (lazyInit V pos count), pos + count * rs)
    else
      let r := eagerLoop c count pos
      (Sum.inl r.1, r.2)
  | none =>
    let r := eagerLoop c count pos
    (Sum.inl r.1, r.2)

/-- The well-formedness invariant of a lazy list relative to the eager
decode: every slot either still holds its own index or holds the eager
value of its position. -/
def WfLazy {V : Type} (c : LazyConv V) (recordSize count pos : Nat)
    (st : LazyListState V) : Prop :=
  st.pos = pos ∧ st.data.length = count ∧
    ∀ k, ∀ hk : k < st.data.length,
      st.data.get ⟨k, hk⟩ = Sum.inl k ∨
      st.data.get ⟨k, hk⟩ = Sum.inr ((c.readAt (pos + k * recordSize)).1)

end LazyArr

end OtConv

/-! ## Theorems -/

namespace OtConv

theorem beBytes_length (w v : Nat) : (beBytes w v).length = w := by
  induction w generalizing v with
  | zero => rfl
  | succ w ih => simp [beBytes, ih]

theorem beRead_append_singleton (l : List Nat) (b : Nat) :
    beRead (l ++ [b]) = beRead l * 256 + b := by
  simp [beRead, List.foldl_append]

theorem beRead_beBytes (w v : Nat) (h : v < 256 ^ w) :
    beRead (beBytes w v) = v := by
  induction w generalizing v with
  | zero =>
    interval_cases v
    rfl
  | succ w ih =>
    have hdiv : v / 256 < 256 ^ w := by
      rw [Nat.div_lt_iff_lt_mul (by norm_num)]
      calc v < 256 ^ (w + 1) := h
        _ = 256 ^ w * 256 := by ring
    rw [beBytes, beRead_append_singleton, ih _ hdiv, Nat.mul_comm]
    exact Nat.div_add_mod v 256

theorem beBytes_zero_eq_replicate (w : Nat) :
    beBytes w 0 = List.replicate w 0 := by
  induction w with
  | zero => rfl
  | succ w ih =>
    rw [beBytes, Nat.zero_div, Nat.zero_mod, ih]
    rw [List.replicate_succ' w 0]

theorem beRead_replicate_zero (w : Nat) :
    beRead (List.replicate w 0) = 0 := by
  induction w with
  | zero => rfl
  | succ w ih =>
    rw [List.replicate_succ' w 0, beRead_append_singleton, ih]

theorem itemsLen_append (a b : List (List Nat)) :
    itemsLen (a ++ b) = itemsLen a + itemsLen b := by
  simp [itemsLen]

/-- C5: an offset-addressed table converter (16-bit Table or 32-bit
LTable, chosen by the longOffset flag) writes None as exactly one
all-zero offset of the declared width and nothing else, and reads a zero
offset as None regardless of the sub-table decoder (the buffer is never
dereferenced: the result does not depend on decodeSub) — a zero offset is
never an error.  In particular reading back the bytes written for None
yields None. -/
theorem table_offset_none_and_zero (longOffset : Bool) (α : Type)
    (subBytes : α → List Nat) (bs rest : List Nat) (d d2 : Nat → α)
    (hzero : TableConv.readOffset longOffset bs = 0) :
    TableConv.write longOffset subBytes (none : Option α) =
        List.replicate (TableConv.offsetWidth longOffset) 0 ∧
    (TableConv.write longOffset subBytes (none : Option α)).length =
        TableConv.offsetWidth longOffset ∧
    TableConv.read longOffset bs d = none ∧
    TableConv.read longOffset bs d = TableConv.read longOffset bs d2 ∧
    TableConv.read longOffset
        (TableConv.write longOffset subBytes (none : Option α) ++ rest) d =
      none := by
  have hw : TableConv.write longOffset subBytes (none : Option α) =
      List.replicate (TableConv.offsetWidth longOffset) 0 := by
    cases longOffset <;>
      simp [TableConv.write, TableConv.writeNullOffset, TableConv.offsetWidth,
            beBytes_zero_eq_replicate]
  have hzr : ∀ r : List Nat,
      TableConv.readOffset longOffset
        (List.replicate (TableConv.offsetWidth longOffset) 0 ++ r) = 0 := by
    intro r
    have htake : (List.replicate (TableConv.offsetWidth longOffset) 0 ++ r).take
        (TableConv.offsetWidth longOffset) =
        List.replicate (TableConv.offsetWidth longOffset) 0 := by
      rw [List.take_append_of_le_length (by simp)]
      simp
    simp [TableConv.readOffset, htake, beRead_replicate_zero]
  refine ⟨hw, ?_, ?_, ?_, ?_⟩
  · rw [hw]; simp
  · simp [TableConv.read, hzero]
  · simp [TableConv.read, hzero]
  · rw [hw]
    simp [TableConv.read, hzr rest]

theorem table_offset_none_and_zero_witness :
    TableConv.readOffset false [0, 0, 7] = 0 ∧
    (TableConv.write false (fun v : Nat => [v]) none = [0, 0] ∧
     TableConv.read false [0, 0, 7] (fun _ => 3) = none) := by
  refine ⟨by decide, ?_, ?_⟩
  · have h := table_offset_none_and_zero false Nat (fun v => [v]) [0, 0, 7] []
      (fun _ => 3) (fun _ => 4) (by decide)
    exact h.1
  · have h := table_offset_none_and_zero false Nat (fun v => [v]) [0, 0, 7] []
      (fun _ => 3) (fun _ => 4) (by decide)
    exact h.2.2.1

end OtConv

namespace OtConv

/-- C9: Version.read only succeeds when the (floor-shifted) upper 16 bits
of the decoded signed 32-bit value equal 1, i.e. 0x10000 <= v < 0x20000,
and aborts (None) on any other major version; Version.write aborts for
every value whose normalized 16.16 form does not have upper 16 bits
equal to 1 and otherwise writes the normalized value unchanged (the
written word decodes back to it). -/
theorem version_major_one_enforced (bs : List Nat) (x : Int) (v : Nat) :
    (Version.read bs = some x →
        Int.fdiv x 65536 = 1 ∧ 65536 ≤ x ∧ x < 131072) ∧
    (Int.fdiv (toSigned32 (beRead (bs.take 4))) 65536 = 1 →
        Version.read bs = some (toSigned32 (beRead (bs.take 4)))) ∧
    (Int.fdiv (toSigned32 (beRead (bs.take 4))) 65536 ≠ 1 →
        Version.read bs = none) ∧
    (fi2ve v / 65536 = 1 →
        Version.write v = some (beBytes 4 (fi2ve v)) ∧
        beRead (beBytes 4 (fi2ve v)) = fi2ve v) ∧
    (fi2ve v / 65536 ≠ 1 → Version.write v = none) := by
  refine ⟨?_, ?_, ?_, ?_, ?_⟩
  · intro h
    unfold Version.read at h
    simp only at h
    split at h
    · rename_i hcond
      obtain rfl : toSigned32 (beRead (bs.take 4)) = x := by
        simpa using h
      refine ⟨hcond, ?_, ?_⟩ <;>
      · rw [Int.fdiv_eq_ediv _ (by norm_num)] at hcond
        omega
    · exact absurd h (by simp)
  · intro h
    unfold Version.read
    simp [h]
  · intro h
    unfold Version.read
    simp [h]
  · intro h
    have hlt : fi2ve v < 131072 := by
      by_contra hge
      have : 2 ≤ fi2ve v / 65536 := by
        rw [Nat.le_div_iff_mul_le (by norm_num)]
        omega
      omega
    refine ⟨?_, ?_⟩
    · unfold Version.write
      simp [h]
    · exact beRead_beBytes 4 (fi2ve v) (by norm_num; omega)
  · intro h
    unfold Version.write
    simp [h]

theorem version_major_one_enforced_witness :
    Version.write 1 = some [0, 1, 0, 0] ∧
    Version.read [0, 1, 0, 0] = some 65536 ∧
    Version.write 131072 = none := by
  have h1 := (version_major_one_enforced [] 0 1).2.2.2.1 (by decide)
  have h2 := (version_major_one_enforced [0, 1, 0, 0] 0 0).2.1 (by decide)
  have h3 := (version_major_one_enforced [] 0 131072).2.2.2.2 (by decide)
  refine ⟨h1.1.trans (by decide), h2.trans (by decide), h3⟩

end OtConv

namespace OtConv

theorem compile_itemsLen (s : LengthStruct) (v : Nat) :
    itemsLen (StructWithLength.compile s v) = StructWithLength.structSize s := by
  simp [StructWithLength.compile, StructWithLength.structSize, itemsLen,
        beBytes_length]
  omega

/-- C6: for length fields of 1, 2 and 4 bytes, StructWithLength.write
reserves a placeholder of exactly the length field's width (the sentinel
0xDE / 0xDEAD / 0xDEADBEEF serializes to the reserved byte pattern of
that width), compiles the struct, measures the emitted byte count — the
struct's true compiled size N — and backpatches the placeholder with N;
the sentinel check passes and the stored field decodes back to N (when N
fits the field); a placeholder mismatch would abort the encode by
definition of write. -/
theorem structwithlength_stores_true_size (items : List (List Nat))
    (s : LengthStruct) (h : s.lenSize = 1 ∨ s.lenSize = 2 ∨ s.lenSize = 4) :
    ∃ patched, StructWithLength.write items s = some patched ∧
      patched.getD (items.length + s.preItems.length) [] =
        beBytes s.lenSize (StructWithLength.structSize s) ∧
      (∀ v, itemsLen (StructWithLength.compile s v) =
        StructWithLength.structSize s) ∧
      (StructWithLength.structSize s < 256 ^ s.lenSize →
        beRead (patched.getD (items.length + s.preItems.length) []) =
          StructWithLength.structSize s) ∧
      (∀ dead, StructWithLength.deadbeef s.lenSize = some dead →
        beBytes s.lenSize dead = StructWithLength.sentinel s.lenSize ∧
        (beBytes s.lenSize dead).length = s.lenSize) := by
  obtain ⟨dead, hdead, hsent⟩ :
      ∃ dead, StructWithLength.deadbeef s.lenSize = some dead ∧
        beBytes s.lenSize dead = StructWithLength.sentinel s.lenSize := by
    rcases h with h | h | h <;> rw [h] <;>
      exact ⟨_, rfl, by decide⟩
  have hlenidx :
      (items ++ StructWithLength.compile s dead).getD
        (items.length + s.preItems.length) [] = beBytes s.lenSize dead := by
    simp only [List.getD_eq_getElem?_getD]
    rw [List.getElem?_append_right (by omega)]
    have : items.length + s.preItems.length - items.length =
        s.preItems.length := by omega
    rw [this]
    unfold StructWithLength.compile
    rw [List.getElem?_append_left (by simp), List.getElem?_concat_length]
    rfl
  have hsizelt : items.length + s.preItems.length <
      (items ++ StructWithLength.compile s dead).length := by
    simp [StructWithLength.compile]
  have hN : itemsLen (items ++ StructWithLength.compile s dead) -
      itemsLen items = StructWithLength.structSize s := by
    rw [itemsLen_append, compile_itemsLen]
    omega
  refine ⟨(items ++ StructWithLength.compile s dead).set
      (items.length + s.preItems.length)
      (beBytes s.lenSize (StructWithLength.structSize s)), ?_, ?_, ?_, ?_, ?_⟩
  · unfold StructWithLength.write
    rw [hdead]
    have hlenidx2 : (items ++ StructWithLength.compile s dead)[items.length +
        s.preItems.length]?.getD [] = beBytes s.lenSize dead := by
      simpa using hlenidx
    simp [hlenidx2, hsent, hN]
  · simp only [List.getD_eq_getElem?_getD]
    rw [List.getElem?_set_self hsizelt]
    rfl
  · exact compile_itemsLen s
  · intro hfit
    simp only [List.getD_eq_getElem?_getD]
    rw [List.getElem?_set_self hsizelt]
    simpa using beRead_beBytes _ _ hfit
  · intro d hd
    rw [hdead] at hd
    obtain rfl : dead = d := by simpa using hd
    refine ⟨hsent, beBytes_length _ _⟩

theorem structwithlength_stores_true_size_witness :
    (1 = 1 ∨ (1 : Nat) = 2 ∨ (1 : Nat) = 4) ∧
    StructWithLength.write [[9]] ⟨[[5, 5]], 1, [[7, 7, 7]]⟩ =
      some [[9], [5, 5], [6], [7, 7, 7]] := by
  refine ⟨Or.inl rfl, ?_⟩
  obtain ⟨patched, hw, hidx, -, -, -⟩ :=
    structwithlength_stores_true_size [[9]] ⟨[[5, 5]], 1, [[7, 7, 7]]⟩
      (Or.inl rfl)
  rw [hw]
  have : patched = [[9], [5, 5], [6], [7, 7, 7]] := by
    have hw2 : StructWithLength.write [[9]] ⟨[[5, 5]], 1, [[7, 7, 7]]⟩ =
        some [[9], [5, 5], [6], [7, 7, 7]] := by decide
    rw [hw] at hw2
    simpa using hw2
  rw [this]

end OtConv

namespace OtConv

/-- C10: AATLookup.write has the unstated precondition that the mapping
is non-empty: on the empty mapping the format-2 candidate builder
unconditionally indexes the first entry of the sorted value list and
raises, before any size comparison, so the whole encode fails — although
the empty mapping is a decodable wire form (a format-6 table with zero
units decodes to the empty mapping, no unit being visited). -/
theorem aatlookup_empty_mapping_raises :
    (∀ (numGlyphs valueSize : Nat) (convWrite : Nat → List Nat),
        AATLookup.write numGlyphs valueSize convWrite [] = none) ∧
    (∀ valueSize : Nat,
        AATLookup.buildFormat2 valueSize [] = Except.error ()) ∧
    (∀ units : List (Nat × Nat), AATLookup.readFormat6Count 0 units = []) :=
  ⟨fun _ _ _ => rfl, fun _ => rfl, fun _ => rfl⟩

theorem lor_eq_add_of_disjoint {a b m : Nat} (ha : a % 2 ^ m = 0)
    (hb : b < 2 ^ m) : a ||| b = a + b := by
  obtain ⟨q, hq⟩ : 2 ^ m ∣ a := Nat.dvd_of_mod_eq_zero ha
  subst hq
  apply Nat.eq_of_testBit_eq
  intro i
  rw [Nat.testBit_or]
  rcases Nat.lt_or_ge i m with him | him
  · have hpow : (2 : Nat) ^ m = 2 ^ i * 2 ^ (m - i) := by
      rw [← pow_add]
      congr 1
      omega
    have heven : ∃ c, (2 : Nat) ^ (m - i) = 2 * c := by
      refine ⟨2 ^ (m - i - 1), ?_⟩
      rw [← pow_succ']
      congr 1
      omega
    obtain ⟨c, hc⟩ := heven
    have h1 : Nat.testBit (2 ^ m * q) i = false := by
      rw [Nat.testBit_to_div_mod, hpow, Nat.mul_assoc,
          Nat.mul_div_cancel_left _ (Nat.two_pow_pos i), hc, Nat.mul_assoc,
          Nat.mul_mod_right]
      rfl
    have h2 : Nat.testBit (2 ^ m * q + b) i = Nat.testBit b i := by
      rw [Nat.testBit_to_div_mod, Nat.testBit_to_div_mod]
      have hdiv : (2 ^ m * q + b) / 2 ^ i = 2 ^ (m - i) * q + b / 2 ^ i := by
        rw [hpow, Nat.mul_assoc, Nat.mul_add_div (Nat.two_pow_pos i)]
      rw [hdiv, hc, Nat.mul_assoc, Nat.add_comm, Nat.add_mul_mod_self_left]
    rw [h1, h2, Bool.false_or]
  · have hb0 : b / 2 ^ i = 0 :=
      Nat.div_eq_of_lt
        (lt_of_lt_of_le hb (Nat.pow_le_pow_right (by norm_num) him))
    have hpow : (2 : Nat) ^ i = 2 ^ m * 2 ^ (i - m) := by
      rw [← pow_add]
      congr 1
      omega
    have hd1 : (2 ^ m * q + b) / 2 ^ i = q / 2 ^ (i - m) := by
      rw [hpow, ← Nat.div_div_eq_div_mul, Nat.mul_add_div (Nat.two_pow_pos m),
          Nat.div_eq_of_lt hb, Nat.add_zero]
    have hd2 : 2 ^ m * q / 2 ^ i = q / 2 ^ (i - m) := by
      rw [hpow, ← Nat.div_div_eq_div_mul,
          Nat.mul_div_cancel_left _ (Nat.two_pow_pos m)]
    rw [Nat.testBit_to_div_mod, Nat.testBit_to_div_mod,
        Nat.testBit_to_div_mod, hd1, hd2, hb0]
    simp

theorem and_mask_shifted (x m k : Nat) :
    x &&& ((2 ^ k - 1) <<< m) = x / 2 ^ m % 2 ^ k * 2 ^ m := by
  apply Nat.eq_of_testBit_eq
  intro i
  rw [Nat.testBit_and, ← Nat.shiftLeft_eq (x / 2 ^ m % 2 ^ k) m,
      Nat.testBit_shiftLeft, Nat.testBit_shiftLeft, Nat.testBit_mod_two_pow,
      Nat.testBit_two_pow_sub_one, ← Nat.shiftRight_eq_div_pow,
      Nat.testBit_shiftRight]
  by_cases him : m ≤ i
  · have hmi : m + (i - m) = i := by omega
    simp [him, hmi, Bool.and_comm]
  · simp [him]

end OtConv

namespace OtConv

/-- C3 (counterexample): with EntryFormat 0x38 (innerBits = 9, 4-byte
entries), the index 0x00012345 does not round-trip through
VarIdxMapValue: its low 16 bits need 14 bits but only 9 survive the
inner mask, so decoding the written entry yields 0x00010145. -/
theorem varidxmap_claimed_roundtrip_false :
    VarIdxMap.innerBits 0x38 = 9 ∧ VarIdxMap.entrySize 0x38 = 4 ∧
    VarIdxMap.read 0x38 (VarIdxMap.write 0x38 [0x12345]).1
        (VarIdxMap.write 0x38 [0x12345]).2 = [0x10145] ∧
    VarIdxMap.read 0x38 (VarIdxMap.write 0x38 [0x12345]).1
        (VarIdxMap.write 0x38 [0x12345]).2 ≠ [0x12345] := by
  refine ⟨rfl, rfl, by decide, by decide⟩

theorem map_id_of_mem {α : Type} {f : α → α} {l : List α}
    (h : ∀ a ∈ l, f a = a) : l.map f = l := by
  induction l with
  | nil => rfl
  | cons x xs ih =>
    simp [h x (by simp), ih (fun a ha => h a (by simp [ha]))]

theorem readEntries_flatten (es : Nat) (raws : List Nat)
    (h : ∀ r ∈ raws, r < 256 ^ es) :
    VarIdxMap.readEntries raws.length es ((raws.map (beBytes es)).flatten) =
      raws := by
  induction raws with
  | nil => rfl
  | cons r rs ih =>
    simp only [List.map_cons, List.flatten_cons, List.length_cons]
    rw [VarIdxMap.readEntries, List.take_left' (beBytes_length es r),
        List.drop_left' (beBytes_length es r),
        beRead_beBytes es r (h r (by simp)), ih (fun x hx => h x (by simp [hx]))]

theorem varidx_raw_core (fmt idx : Nat) (hfmt : fmt &&& 0x000F = 8)
    (h32 : idx < 2 ^ 32) (hin : idx % 65536 < 512) :
    VarIdxMap.idxOfRaw fmt (VarIdxMap.rawOfIdx fmt idx) = idx := by
  have hib : VarIdxMap.innerBits fmt = 9 := by
    unfold VarIdxMap.innerBits
    rw [hfmt]
  have him : VarIdxMap.innerMask fmt = 511 := by
    unfold VarIdxMap.innerMask
    rw [hib]
    decide
  have hom : VarIdxMap.outerMask fmt = 0xFFFFFE00 := by
    unfold VarIdxMap.outerMask
    rw [him]
  have hos : VarIdxMap.outerShift fmt = 7 := by
    unfold VarIdxMap.outerShift
    rw [hib]
  have ho16 : idx / 65536 < 65536 := by omega
  have hA : idx &&& 0xFFFF0000 = idx / 65536 * 65536 := by
    rw [show (0xFFFF0000 : Nat) = (2 ^ 16 - 1) <<< 16 from by decide,
        and_mask_shifted, show (2 : Nat) ^ 16 = 65536 from by norm_num,
        Nat.mod_eq_of_lt ho16]
  have h511 : idx &&& 511 = idx % 512 := by
    rw [show (511 : Nat) = 2 ^ 9 - 1 from by norm_num,
        Nat.and_pow_two_sub_one_eq_mod,
        show (2 : Nat) ^ 9 = 512 from by norm_num]
  have hrawA : VarIdxMap.rawOfIdx fmt idx = idx / 65536 * 512 + idx % 512 := by
    unfold VarIdxMap.rawOfIdx
    rw [hA, him, hos, h511]
    have hs : (idx / 65536 * 65536) >>> 7 = idx / 65536 * 512 := by
      rw [Nat.shiftRight_eq_div_pow, show (2 : Nat) ^ 7 = 128 from by norm_num]
      omega
    rw [hs, lor_eq_add_of_disjoint (m := 9)
      (by rw [show (2 : Nat) ^ 9 = 512 from by norm_num, Nat.mul_mod_left])
      (by rw [show (2 : Nat) ^ 9 = 512 from by norm_num]; omega)]
  unfold VarIdxMap.idxOfRaw
  rw [hrawA, him, hom, hos]
  have h1 : (idx / 65536 * 512 + idx % 512) &&& 0xFFFFFE00 =
      idx / 65536 * 512 := by
    rw [show (0xFFFFFE00 : Nat) = (2 ^ 23 - 1) <<< 9 from by decide,
        and_mask_shifted, show (2 : Nat) ^ 9 = 512 from by norm_num]
    have hq : (idx / 65536 * 512 + idx % 512) / 512 = idx / 65536 := by
      omega
    rw [hq, Nat.mod_eq_of_lt (show idx / 65536 < 2 ^ 23 by omega)]
  have h2 : (idx / 65536 * 512 + idx % 512) &&& 511 = idx % 512 := by
    rw [show (511 : Nat) = 2 ^ 9 - 1 from by norm_num,
        Nat.and_pow_two_sub_one_eq_mod,
        show (2 : Nat) ^ 9 = 512 from by norm_num]
    omega
  rw [h1, h2]
  have h3 : (idx / 65536 * 512) <<< 7 = idx / 65536 * 65536 := by
    rw [Nat.shiftLeft_eq, show (2 : Nat) ^ 7 = 128 from by norm_num,
        Nat.mul_assoc]
  rw [h3, lor_eq_add_of_disjoint (m := 16)
    (by rw [show (2 : Nat) ^ 16 = 65536 from by norm_num, Nat.mul_mod_left])
    (by rw [show (2 : Nat) ^ 16 = 65536 from by norm_num]; omega)]
  omega

/-- C3 (amended): for EntryFormat with innerBits = 9 and any of the four
entry byte sizes, an index round-trips through VarIdxMapValue provided
its low 16 bits fit in the 9 inner bits (idx % 65536 < 512, which the
claimed witness 0x00012345 violates), idx fits in 32 bits, and the
recombined raw entry fits the chosen entry byte size; write splits
idx into outer/inner halves and read reconstructs them. -/
theorem varidxmap_roundtrip_inner_fits (fmt : Nat) (mapping : List Nat)
    (hfmt : fmt &&& 0x000F = 8)
    (hfit : ∀ idx ∈ mapping, idx < 2 ^ 32 ∧ idx % 65536 < 512 ∧
      VarIdxMap.rawOfIdx fmt idx < 256 ^ VarIdxMap.entrySize fmt) :
    VarIdxMap.read fmt (VarIdxMap.write fmt mapping).1
      (VarIdxMap.write fmt mapping).2 = mapping := by
  unfold VarIdxMap.read VarIdxMap.write
  simp only
  have hlen : (mapping.map (VarIdxMap.rawOfIdx fmt)).length = mapping.length := by
    simp
  have hmap : (mapping.map
      (fun idx => beBytes (VarIdxMap.entrySize fmt)
        (VarIdxMap.rawOfIdx fmt idx))) =
      ((mapping.map (VarIdxMap.rawOfIdx fmt)).map
        (beBytes (VarIdxMap.entrySize fmt))) := by
    simp
  rw [hmap, ← hlen, readEntries_flatten _ _
    (by
      intro r hr
      simp only [List.mem_map] at hr
      obtain ⟨idx, hidx, rfl⟩ := hr
      exact (hfit idx hidx).2.2)]
  rw [List.map_map]
  exact map_id_of_mem (fun a ha =>
    varidx_raw_core fmt a hfmt (hfit a ha).1 (hfit a ha).2.1)

theorem varidxmap_roundtrip_inner_fits_witness :
    (0x18 &&& 0x000F) = 8 ∧
    VarIdxMap.read 0x18 (VarIdxMap.write 0x18 [0x10145]).1
        (VarIdxMap.write 0x18 [0x10145]).2 = [0x10145] :=
  ⟨by decide,
   varidxmap_roundtrip_inner_fits 0x18 [0x10145] (by decide) (by decide)⟩

end OtConv

namespace OtConv

theorem countStep_ge (n : Nat) (t : STX.ContextualMorphAction) :
    n ≤ STX.countStep n t := by
  unfold STX.countStep
  dsimp only
  split_ifs <;>
    first
      | exact le_refl n
      | exact le_max_left _ _
      | exact le_trans (le_max_left _ _) (le_max_left _ _)

theorem countStep_cases (n : Nat) (t : STX.ContextualMorphAction) :
    STX.countStep n t = n ∨
    (t.MarkIndex ≠ 0xFFFF ∧ STX.countStep n t = t.MarkIndex + 1) ∨
    (t.CurrentIndex ≠ 0xFFFF ∧ STX.countStep n t = t.CurrentIndex + 1) := by
  unfold STX.countStep
  dsimp only
  split_ifs with h1 h2 h2
  · rcases max_choice (max n (t.MarkIndex + 1)) (t.CurrentIndex + 1) with h | h
    · rcases max_choice n (t.MarkIndex + 1) with h3 | h3
      · exact Or.inl (by rw [h, h3])
      · exact Or.inr (Or.inl ⟨h2, by rw [h, h3]⟩)
    · exact Or.inr (Or.inr ⟨h1, h⟩)
  · rcases max_choice n (t.CurrentIndex + 1) with h | h
    · exact Or.inl h
    · exact Or.inr (Or.inr ⟨h1, h⟩)
  · rcases max_choice n (t.MarkIndex + 1) with h | h
    · exact Or.inl h
    · exact Or.inr (Or.inl ⟨h2, h⟩)
  · exact Or.inl rfl

theorem countStep_mark (n : Nat) (t : STX.ContextualMorphAction)
    (h : t.MarkIndex ≠ 0xFFFF) : t.MarkIndex + 1 ≤ STX.countStep n t := by
  unfold STX.countStep
  dsimp only
  split_ifs
  · exact le_trans (le_max_right _ _) (le_max_left _ _)
  · exact le_max_right _ _

theorem countStep_current (n : Nat) (t : STX.ContextualMorphAction)
    (h : t.CurrentIndex ≠ 0xFFFF) :
    t.CurrentIndex + 1 ≤ STX.countStep n t := by
  unfold STX.countStep
  dsimp only
  split_ifs
  · exact le_max_right _ _
  · exact le_max_right _ _

theorem foldl_countStep_ge (ts : List STX.ContextualMorphAction) (n : Nat) :
    n ≤ ts.foldl STX.countStep n := by
  induction ts generalizing n with
  | nil => exact Nat.le_refl n
  | cons a as ih => exact le_trans (countStep_ge n a) (ih _)

theorem foldl_countStep_bound (ts : List STX.ContextualMorphAction) (n : Nat)
    (t : STX.ContextualMorphAction) (ht : t ∈ ts) :
    (t.MarkIndex ≠ 0xFFFF → t.MarkIndex + 1 ≤ ts.foldl STX.countStep n) ∧
    (t.CurrentIndex ≠ 0xFFFF →
      t.CurrentIndex + 1 ≤ ts.foldl STX.countStep n) := by
  induction ts generalizing n with
  | nil => cases ht
  | cons a as ih =>
    rcases List.mem_cons.mp ht with rfl | hmem
    · refine ⟨fun h => ?_, fun h => ?_⟩
      · exact le_trans (countStep_mark n t h) (foldl_countStep_ge as _)
      · exact le_trans (countStep_current n t h) (foldl_countStep_ge as _)
    · exact ih _ hmem

theorem foldl_countStep_reached (ts : List STX.ContextualMorphAction)
    (n : Nat) :
    ts.foldl STX.countStep n = n ∨
    ∃ t ∈ ts,
      (t.MarkIndex ≠ 0xFFFF ∧
        ts.foldl STX.countStep n = t.MarkIndex + 1) ∨
      (t.CurrentIndex ≠ 0xFFFF ∧
        ts.foldl STX.countStep n = t.CurrentIndex + 1) := by
  induction ts generalizing n with
  | nil => exact Or.inl rfl
  | cons a as ih =>
    rw [List.foldl_cons]
    rcases ih (STX.countStep n a) with heq | ⟨t, hmem, hcase⟩
    · rw [heq]
      rcases countStep_cases n a with h | h | h
      · exact Or.inl h
      · exact Or.inr ⟨a, by simp, Or.inl ⟨h.1, h.2⟩⟩
      · exact Or.inr ⟨a, by simp, Or.inr ⟨h.1, h.2⟩⟩
    · exact Or.inr ⟨t, by simp [hmem], hcase⟩

theorem states_foldl_ge (states : List (List STX.ContextualMorphAction))
    (n : Nat) :
    n ≤ states.foldl (fun m st => st.foldl STX.countStep m) n := by
  induction states generalizing n with
  | nil => exact Nat.le_refl n
  | cons a as ih => exact le_trans (foldl_countStep_ge a n) (ih _)

/-- C8: the STX per-glyph-lookup table's element count is never read from
disk: it is derived as the maximum per-glyph-lookup index referenced by
any transition plus one, considering both MarkIndex and CurrentIndex of
contextual-morph actions and treating the sentinel 0xFFFF as
contributing nothing (every non-sentinel index is below the count, and
the count, if non-zero, is one plus some referenced non-sentinel index);
decode reads exactly that many lookups, and encode aborts iff
len(PerGlyphLookups) differs from that count. -/
theorem stx_perglyph_lookup_count {α : Type}
    (states : List (List STX.ContextualMorphAction)) (pgl : List α)
    (decodeLookup : Nat → α) :
    (∀ st ∈ states, ∀ t ∈ st,
        (t.MarkIndex ≠ 0xFFFF →
          t.MarkIndex < STX.countPerGlyphLookups states) ∧
        (t.CurrentIndex ≠ 0xFFFF →
          t.CurrentIndex < STX.countPerGlyphLookups states)) ∧
    (STX.countPerGlyphLookups states = 0 ∨
      ∃ st ∈ states, ∃ t ∈ st,
        (t.MarkIndex ≠ 0xFFFF ∧
          STX.countPerGlyphLookups states = t.MarkIndex + 1) ∨
        (t.CurrentIndex ≠ 0xFFFF ∧
          STX.countPerGlyphLookups states = t.CurrentIndex + 1)) ∧
    ((STX.compilePerGlyphLookups states pgl).isSome ↔
        pgl.length = STX.countPerGlyphLookups states) ∧
    (STX.readPerGlyphLookups states decodeLookup).length =
        STX.countPerGlyphLookups states := by
  refine ⟨?_, ?_, ?_, ?_⟩
  · intro st hst t ht
    unfold STX.countPerGlyphLookups
    have main : ∀ (ss : List (List STX.ContextualMorphAction)) (n : Nat),
        st ∈ ss →
        (t.MarkIndex ≠ 0xFFFF → t.MarkIndex + 1 ≤
          ss.foldl (fun m s => s.foldl STX.countStep m) n) ∧
        (t.CurrentIndex ≠ 0xFFFF → t.CurrentIndex + 1 ≤
          ss.foldl (fun m s => s.foldl STX.countStep m) n) := by
      intro ss
      induction ss with
      | nil => intro n h; cases h
      | cons a as ih =>
        intro n h
        rcases List.mem_cons.mp h with rfl | hmem
        · refine ⟨fun hm => ?_, fun hc => ?_⟩
          · exact le_trans ((foldl_countStep_bound st n t ht).1 hm)
              (states_foldl_ge as _)
          · exact le_trans ((foldl_countStep_bound st n t ht).2 hc)
              (states_foldl_ge as _)
        · exact ih _ hmem
    have h := main states 0 hst
    exact ⟨fun hm => h.1 hm, fun hc => h.2 hc⟩
  · unfold STX.countPerGlyphLookups
    have main : ∀ (ss : List (List STX.ContextualMorphAction)) (n : Nat),
        ss.foldl (fun m s => s.foldl STX.countStep m) n = n ∨
        ∃ st ∈ ss, ∃ t ∈ st,
          (t.MarkIndex ≠ 0xFFFF ∧
            ss.foldl (fun m s => s.foldl STX.countStep m) n =
              t.MarkIndex + 1) ∨
          (t.CurrentIndex ≠ 0xFFFF ∧
            ss.foldl (fun m s => s.foldl STX.countStep m) n =
              t.CurrentIndex + 1) := by
      intro ss
      induction ss with
      | nil => exact fun n => Or.inl rfl
      | cons a as ih =>
        intro n
        rw [List.foldl_cons]
        rcases ih (a.foldl STX.countStep n) with heq | ⟨st, hst, t, ht, hc⟩
        · rw [heq]
          rcases foldl_countStep_reached a n with h | ⟨t, ht, hc⟩
          · exact Or.inl h
          · exact Or.inr ⟨a, by simp, t, ht, hc⟩
        · exact Or.inr ⟨st, by simp [hst], t, ht, hc⟩
    exact main states 0
  · unfold STX.compilePerGlyphLookups
    constructor
    · intro h
      by_contra hne
      rw [if_neg hne] at h
      exact absurd h (by simp)
    · intro h
      rw [if_pos h]
      rfl
  · unfold STX.readPerGlyphLookups
    simp

theorem stx_perglyph_lookup_count_witness :
    (STX.compilePerGlyphLookups
      [[⟨2, 0xFFFF⟩]] ([10, 20, 30] : List Nat)).isSome ∧
    ¬ (STX.compilePerGlyphLookups
      [[⟨2, 0xFFFF⟩]] ([10, 20] : List Nat)).isSome ∧
    2 < STX.countPerGlyphLookups [[⟨2, 0xFFFF⟩]] := by
  refine ⟨?_, ?_, ?_⟩
  · exact (stx_perglyph_lookup_count [[⟨2, 0xFFFF⟩]] [10, 20, 30]
      (fun i => i)).2.2.1.mpr (by decide)
  · intro h
    have := (stx_perglyph_lookup_count [[⟨2, 0xFFFF⟩]] [10, 20]
      (fun i => i)).2.2.1.mp h
    simp [STX.countPerGlyphLookups, STX.countStep] at this
  · exact (stx_perglyph_lookup_count [[⟨2, 0xFFFF⟩]] ([] : List Nat)
      (fun i => i)).1 [⟨2, 0xFFFF⟩] (by simp) ⟨2, 0xFFFF⟩ (by simp)
      |>.1 (by decide)

end OtConv


namespace OtConv

theorem lookup_append {α β : Type} [BEq α] (a : α) (l1 l2 : List (α × β)) :
    (l1 ++ l2).lookup a =
      match l1.lookup a with
      | some v => some v
      | none => l2.lookup a := by
  induction l1 with
  | nil => simp
  | cons q l ih =>
    obtain ⟨k, v⟩ := q
    cases h : a == k <;> simp [List.lookup, h, ih]

theorem getD_append_lt {α : Type} (l1 l2 : List α) (i : Nat) (d : α)
    (h : i < l1.length) : (l1 ++ l2).getD i d = l1.getD i d := by
  simp [List.getD_eq_getElem?_getD, List.getElem?_append_left h]

theorem getD_concat_len {α : Type} (l : List α) (x : α) (d : α) :
    (l ++ [x]).getD l.length d = x := by
  simp [List.getD_eq_getElem?_getD, List.getElem?_concat_length]

theorem getD_eq_getElem' {α : Type} (l : List α) (i : Nat) (d : α)
    (h : i < l.length) : l.getD i d = l[i] := by
  simp [List.getD_eq_getElem?_getD, List.getElem?_eq_getElem h]

theorem buildEntries_inv (cells : List (List Nat)) :
    ∀ (p entries : List (List Nat)) (ids : List (List Nat × Nat))
      (arr : List Nat),
      entries.Nodup →
      (∀ b i, ids.lookup b = some i →
        ∃ h : i < entries.length, entries[i] = b) →
      (∀ b, ids.lookup b = none → b ∉ entries) →
      entries.toFinset = p.toFinset →
      arr.length = p.length →
      (∀ i, i < p.length → arr.getD i 0 < entries.length ∧
        entries.getD (arr.getD i 0) [] = p.getD i []) →
      ((cells.foldl STX.dedupStep (entries, ids, arr)).1.Nodup ∧
       (cells.foldl STX.dedupStep (entries, ids, arr)).1.toFinset =
         (p ++ cells).toFinset ∧
       (cells.foldl STX.dedupStep (entries, ids, arr)).2.2.length =
         (p ++ cells).length ∧
       (∀ i, i < (p ++ cells).length →
         (cells.foldl STX.dedupStep (entries, ids, arr)).2.2.getD i 0 <
           (cells.foldl STX.dedupStep (entries, ids, arr)).1.length ∧
         (cells.foldl STX.dedupStep (entries, ids, arr)).1.getD
             ((cells.foldl STX.dedupStep (entries, ids, arr)).2.2.getD i 0)
             [] =
           (p ++ cells).getD i [])) := by
  induction cells with
  | nil =>
    intro p entries ids arr h1 h2 h3 h4 h5 h6
    simp only [List.foldl_nil, List.append_nil]
    exact ⟨h1, h4, h5, h6⟩
  | cons c cs ih =>
    intro p entries ids arr h1 h2 h3 h4 h5 h6
    rw [List.foldl_cons,
        show p ++ c :: cs = (p ++ [c]) ++ cs from by simp]
    rcases hlk : ids.lookup c with _ | i
    · have hstep : STX.dedupStep (entries, ids, arr) c =
          (entries ++ [c], ids ++ [(c, entries.length)],
           arr ++ [entries.length]) := by
        simp [STX.dedupStep, hlk]
      rw [hstep]
      have hcnot : c ∉ entries := h3 c hlk
      apply ih (p ++ [c]) (entries ++ [c]) (ids ++ [(c, entries.length)])
        (arr ++ [entries.length])
      · exact List.nodup_append.mpr
          ⟨h1, List.nodup_singleton c,
           fun x hx hx2 => by
             simp only [List.mem_singleton] at hx2
             subst hx2
             exact hcnot hx⟩
      · intro b j hbj
        rw [lookup_append] at hbj
        cases hb : ids.lookup b with
        | some j0 =>
          rw [hb] at hbj
          simp only at hbj
          obtain rfl : j0 = j := by simpa using hbj
          obtain ⟨hlt, hget⟩ := h2 b j0 hb
          refine ⟨by simp only [List.length_append, List.length_singleton]; omega, ?_⟩
          rw [List.getElem_append_left hlt]
          exact hget
        | none =>
          rw [hb] at hbj
          simp only at hbj
          cases hbc : b == c with
          | true =>
            simp only [List.lookup, hbc] at hbj
            obtain rfl : entries.length = j := by simpa using hbj
            obtain rfl : b = c := by simpa using hbc
            refine ⟨by simp, ?_⟩
            have hthis := List.getElem?_concat_length entries b
            rw [List.getElem?_eq_getElem (by simp)] at hthis
            set_option linter.unnecessarySimpa false in
    exact (by simpa using hthis : (entries ++ [b])[entries.length] = b)
          | false =>
            simp only [List.lookup, hbc] at hbj
            cases hbj
      · intro b hb
        rw [lookup_append] at hb
        cases hlb : ids.lookup b with
        | some j0 =>
          rw [hlb] at hb
          simp only at hb
          cases hb
        | none =>
          rw [hlb] at hb
          simp only at hb
          have hbc : (b == c) = false := by
            cases hbc : b == c with
            | true => simp [List.lookup, hbc] at hb
            | false => rfl
          have hbne : b ≠ c := by
            intro h
            subst h
            simp at hbc
          simp only [List.mem_append, List.mem_singleton]
          rintro (hmem | rfl)
          · exact h3 b hlb hmem
          · exact hbne rfl
      · simp only [List.toFinset_append, h4]
      · simp [h5]
      · intro j hj
        simp only [List.length_append, List.length_singleton] at hj
        rcases Nat.lt_or_ge j p.length with hjlt | hjge
        · have harr : j < arr.length := by omega
          rw [getD_append_lt arr _ j 0 harr, getD_append_lt p _ j [] hjlt]
          obtain ⟨hb, hg⟩ := h6 j hjlt
          refine ⟨by simp only [List.length_append, List.length_singleton]; omega, ?_⟩
          rw [getD_append_lt entries _ _ [] hb]
          exact hg
        · obtain rfl : j = p.length := by omega
          have harr : (arr ++ [entries.length]).getD p.length 0 =
              entries.length := by
            rw [← h5]
            exact getD_concat_len _ _ _
          rw [harr, getD_concat_len entries c, getD_concat_len p c]
          exact ⟨by simp, rfl⟩
    · have hstep : STX.dedupStep (entries, ids, arr) c =
          (entries, ids, arr ++ [i]) := by
        simp [STX.dedupStep, hlk]
      rw [hstep]
      obtain ⟨hilt, higet⟩ := h2 c i hlk
      have hcmem : c ∈ entries := by
        rw [← higet]
        exact List.getElem_mem hilt
      apply ih (p ++ [c]) entries ids (arr ++ [i]) h1 h2 h3
      · rw [List.toFinset_append, h4]
        have hcp : c ∈ p.toFinset := by
          rw [← h4]
          exact List.mem_toFinset.mpr hcmem
        have hsub : [c].toFinset ⊆ p.toFinset := by
          simp [hcp]
        exact (Finset.union_eq_left.mpr hsub).symm
      · simp [h5]
      · intro j hj
        simp only [List.length_append, List.length_singleton] at hj
        rcases Nat.lt_or_ge j p.length with hjlt | hjge
        · have harr : j < arr.length := by omega
          rw [getD_append_lt arr _ j 0 harr, getD_append_lt p _ j [] hjlt]
          exact h6 j hjlt
        · obtain rfl : j = p.length := by omega
          have harr : (arr ++ [i]).getD p.length 0 = i := by
            rw [← h5]
            exact getD_concat_len _ _ _
          rw [harr, getD_concat_len p c, getD_eq_getElem' entries i [] hilt]
          exact ⟨hilt, higet⟩

end OtConv

namespace OtConv

/-- C2: after the STXHeader.write entry-deduplication pass over the
row-major (state, class) cells, the state array has one index per cell;
any two cells whose transitions compile to byte-identical records
reference the same entry-table index; and the number of records stored
in the entry table equals the number of distinct compiled transition
byte strings across all cells, not the number of cells. -/
theorem stx_write_entry_dedup (glyphClassCount : Nat)
    (states : List (Nat → List Nat)) :
    (STX.buildEntries (STX.cellsOf glyphClassCount states)).2.2.length =
        (STX.cellsOf glyphClassCount states).length ∧
    (∀ i j, i < (STX.cellsOf glyphClassCount states).length →
        j < (STX.cellsOf glyphClassCount states).length →
        (STX.cellsOf glyphClassCount states).getD i [] =
          (STX.cellsOf glyphClassCount states).getD j [] →
        (STX.buildEntries (STX.cellsOf glyphClassCount states)).2.2.getD
            i 0 =
          (STX.buildEntries (STX.cellsOf glyphClassCount states)).2.2.getD
            j 0) ∧
    (STX.buildEntries (STX.cellsOf glyphClassCount states)).1.length =
        (STX.cellsOf glyphClassCount states).dedup.length := by
  unfold STX.buildEntries
  have h := buildEntries_inv (STX.cellsOf glyphClassCount states) [] [] [] []
    List.nodup_nil
    (fun b i hbi => by simp at hbi)
    (fun b hb => by simp)
    (by simp)
    (by simp)
    (fun i hi => absurd hi (by simp))
  rw [List.nil_append] at h
  obtain ⟨hnd, hfin, hlen, hidx⟩ := h
  refine ⟨hlen, ?_, ?_⟩
  · intro i j hi hj heq
    obtain ⟨hbi, hgi⟩ := hidx i hi
    obtain ⟨hbj, hgj⟩ := hidx j hj
    have hg := hgi.trans (heq.trans hgj.symm)
    rw [getD_eq_getElem' _ _ _ hbi, getD_eq_getElem' _ _ _ hbj] at hg
    exact hnd.getElem_inj_iff.mp hg
  · rw [(List.toFinset_card_of_nodup hnd).symm.trans
        (by rw [hfin, List.card_toFinset])]

theorem stx_write_entry_dedup_witness :
    (STX.buildEntries (STX.cellsOf 2 [fun _ => [1]])).2.2.getD 0 0 =
      (STX.buildEntries (STX.cellsOf 2 [fun _ => [1]])).2.2.getD 1 0 ∧
    (STX.buildEntries (STX.cellsOf 2 [fun _ => [1]])).1.length = 1 := by
  have h := stx_write_entry_dedup 2 [fun _ => [1]]
  refine ⟨h.2.1 0 1 ?_ ?_ ?_, h.2.2.trans ?_⟩
  · show 0 < (STX.cellsOf 2 [fun _ => [1]]).length
    simp [STX.cellsOf]
  · show 1 < (STX.cellsOf 2 [fun _ => [1]]).length
    simp [STX.cellsOf]
  · rfl
  · rfl

end OtConv

namespace OtConv

theorem eagerLoop_fixed {V : Type} (c : LazyConv V) (rs : Nat)
    (hfix : ∀ p, (c.readAt p).2 = p + rs) :
    ∀ (n pos : Nat),
      (LazyArr.eagerLoop c n pos).2 = pos + n * rs ∧
      (LazyArr.eagerLoop c n pos).1.length = n ∧
      ∀ k, k < n → (LazyArr.eagerLoop c n pos).1[k]? =
        some (c.readAt (pos + k * rs)).1 := by
  intro n
  induction n with
  | zero =>
    intro pos
    exact ⟨by simp [LazyArr.eagerLoop], by simp [LazyArr.eagerLoop],
           fun k hk => absurd hk (by omega)⟩
  | succ n ih =>
    intro pos
    obtain ⟨ih1, ih2, ih3⟩ := ih (c.readAt pos).2
    refine ⟨?_, ?_, ?_⟩
    · show (LazyArr.eagerLoop c n (c.readAt pos).2).2 = pos + (n + 1) * rs
      rw [ih1, hfix pos]
      ring
    · show ((c.readAt pos).1 ::
          (LazyArr.eagerLoop c n (c.readAt pos).2).1).length = n + 1
      simp [ih2]
    · intro k hk
      cases k with
      | zero => simp [LazyArr.eagerLoop]
      | succ k =>
        show ((c.readAt pos).1 ::
            (LazyArr.eagerLoop c n (c.readAt pos).2).1)[k + 1]? = _
        rw [List.getElem?_cons_succ, ih3 k (by omega), hfix pos]
        congr 2
        ring

theorem getItem_wf {V : Type} (c : LazyConv V) (rs count pos : Nat)
    (st : LazyArr.LazyListState V) (k : Nat)
    (hwf : LazyArr.WfLazy c rs count pos st) (hk : k < count) :
    ∃ st2 d, LazyArr.getItem c rs st k =
        some ((c.readAt (pos + k * rs)).1, st2, d) ∧
      LazyArr.WfLazy c rs count pos st2 ∧
      LazyArr.getItem c rs st2 k =
        some ((c.readAt (pos + k * rs)).1, st2, 0) := by
  obtain ⟨hpos, hlen, hslot⟩ := hwf
  have hkd : k < st.data.length := by omega
  have hget : st.data.get? k = some (st.data.get ⟨k, hkd⟩) :=
    List.get?_eq_get hkd
  rcases hslot k hkd with hin | hin
  · refine ⟨⟨st.pos, st.data.set k
        (Sum.inr ((c.readAt (st.pos + k * rs)).1))⟩, 1, ?_, ?_, ?_⟩
    · unfold LazyArr.getItem
      rw [hget, hin]
      simp [hpos]
    · refine ⟨by simpa using hpos, by simpa using hlen, ?_⟩
      intro j hj
      simp only [List.length_set] at hj
      rw [List.get_set]
      rcases eq_or_ne k j with rfl | hne
      · right
        rw [if_pos rfl, hpos]
      · rw [if_neg hne]
        exact hslot j hj
    · unfold LazyArr.getItem
      have hkd2 : k < (st.data.set k
          (Sum.inr ((c.readAt (st.pos + k * rs)).1))).length := by
        simpa using hkd
      rw [List.get?_eq_get hkd2]
      simp [List.get_set, hpos]
  · refine ⟨st, 0, ?_, ⟨hpos, hlen, hslot⟩, ?_⟩ <;>
    · unfold LazyArr.getItem
      rw [hget, hin]

end OtConv

namespace OtConv

theorem forceRange_wf {V : Type} (c : LazyConv V) (rs count pos : Nat) :
    ∀ (ks : List Nat) (st : LazyArr.LazyListState V),
      LazyArr.WfLazy c rs count pos st → (∀ j ∈ ks, j < count) →
      (LazyArr.forceRange c rs st ks).1 =
        ks.map (fun j => (c.readAt (pos + j * rs)).1) ∧
      LazyArr.WfLazy c rs count pos (LazyArr.forceRange c rs st ks).2 := by
  intro ks
  induction ks with
  | nil =>
    intro st hwf _
    exact ⟨rfl, hwf⟩
  | cons k ks ih =>
    intro st hwf hks
    obtain ⟨st2, d, hget, hwf2, -⟩ :=
      getItem_wf c rs count pos st k hwf (hks k (by simp))
    obtain ⟨ih1, ih2⟩ := ih st2 hwf2 (fun j hj => hks j (by simp [hj]))
    unfold LazyArr.forceRange
    rw [hget]
    exact ⟨by simp [ih1], ih2⟩

/-- C7: for a lazy-eligible array field (lazy font, count above the
threshold of 8, converter with a fixed record size rs consumed by every
element read), readArray returns the placeholder lazy list and advances
the outer cursor past the whole array (count * rs bytes) at once — the
same final position the eager decode reaches; indexing any position of
any well-formed lazy state yields exactly the eager element of that
position, decoding it at most once: the first access memoizes and a
repeated access performs no decode and returns the same value; forcing a
slice yields the eager elements of the requested positions element-wise
and preserves well-formedness, so later indexing still agrees with the
eager decode. -/
theorem lazy_array_eager_equivalence {V : Type} (c : LazyConv V)
    (rs count pos k : Nat) (st : LazyArr.LazyListState V) (ks : List Nat)
    (hrs : c.recordSize = some rs)
    (hfix : ∀ p, (c.readAt p).2 = p + rs)
    (hcount : 8 < count)
    (hwf : LazyArr.WfLazy c rs count pos st)
    (hk : k < count)
    (hks : ∀ j ∈ ks, j < count) :
    LazyArr.readArray c true count pos =
      (Sum.inr (LazyArr.lazyInit V pos count), pos + count * rs) ∧
    LazyArr.WfLazy c rs count pos (LazyArr.lazyInit V pos count) ∧
    (LazyArr.eagerLoop c count pos).2 = pos + count * rs ∧
    (∃ st2 d,
      LazyArr.getItem c rs st k =
        some ((c.readAt (pos + k * rs)).1, st2, d) ∧
      (LazyArr.eagerValues c count pos)[k]? =
        some ((c.readAt (pos + k * rs)).1) ∧
      LazyArr.WfLazy c rs count pos st2 ∧
      LazyArr.getItem c rs st2 k =
        some ((c.readAt (pos + k * rs)).1, st2, 0)) ∧
    ((LazyArr.forceRange c rs st ks).1 =
        ks.map (fun j => (c.readAt (pos + j * rs)).1) ∧
      LazyArr.WfLazy c rs count pos (LazyArr.forceRange c rs st ks).2) := by
  refine ⟨?_, ?_, ?_, ?_, ?_⟩
  · unfold LazyArr.readArray
    rw [hrs]
    simp [hcount]
  · refine ⟨rfl, by simp [LazyArr.lazyInit], ?_⟩
    intro j hj
    left
    simp only [LazyArr.lazyInit] at hj ⊢
    rw [List.get_of_eq rfl]
    simp
  · exact (eagerLoop_fixed c rs hfix count pos).1
  · obtain ⟨st2, d, hget, hwf2, hagain⟩ :=
      getItem_wf c rs count pos st k hwf hk
    exact ⟨st2, d, hget,
      (eagerLoop_fixed c rs hfix count pos).2.2 k hk, hwf2, hagain⟩
  · exact forceRange_wf c rs count pos ks st hwf hks

theorem lazy_array_eager_equivalence_witness :
    LazyArr.readArray ⟨fun p => (p, p + 1), some 1⟩ true 9 0 =
      (Sum.inr (LazyArr.lazyInit Nat 0 9), 9) ∧
    (∃ st2 d, LazyArr.getItem (⟨fun p => (p, p + 1), some 1⟩ : LazyConv Nat) 1
      (LazyArr.lazyInit Nat 0 9) 3 = some (3, st2, d)) := by
  have hwf0 : LazyArr.WfLazy (⟨fun p => (p, p + 1), some 1⟩ : LazyConv Nat)
      1 9 0 (LazyArr.lazyInit Nat 0 9) := by
    refine ⟨rfl, by simp [LazyArr.lazyInit], ?_⟩
    intro j hj
    left
    simp [LazyArr.lazyInit]
  have h := lazy_array_eager_equivalence
    (⟨fun p => (p, p + 1), some 1⟩ : LazyConv Nat) 1 9 0 3
    (LazyArr.lazyInit Nat 0 9) [] rfl (fun p => rfl) (by omega) hwf0
    (by omega) (by intro j hj; cases hj)
  refine ⟨by simpa using h.1, ?_⟩
  obtain ⟨st2, d, hget, -, -, -⟩ := h.2.2.2.1
  exact ⟨st2, d, by simpa using hget⟩

end OtConv

namespace OtConv

theorem sum_map_const_on {α : Type} (l : List α) (f : α → Nat) (c : Nat)
    (h : ∀ x ∈ l, f x = c) : (l.map f).sum = l.length * c := by
  induction l with
  | nil => simp
  | cons x xs ih =>
    simp only [List.map_cons, List.sum_cons, List.length_cons,
               h x (by simp), ih (fun y hy => h y (by simp [hy]))]
    ring

theorem writeBinSearchHeader_length (numUnits unitSize : Nat) :
    (AATLookup.writeBinSearchHeader numUnits unitSize).length = 10 := by
  simp [AATLookup.writeBinSearchHeader, beBytes_length]

theorem writeFormat0_length (valueSize : Nat) (convWrite : Nat → List Nat)
    (values : List (Nat × Nat))
    (hconv : ∀ v, (convWrite v).length = valueSize) :
    (AATLookup.writeFormat0 convWrite values).length =
      2 + values.length * valueSize := by
  unfold AATLookup.writeFormat0
  rw [List.length_append, List.length_flatten, beBytes_length, List.map_map,
      sum_map_const_on _ _ valueSize (fun x _ => hconv x.2)]

theorem writeFormat2_length (valueSize : Nat) (convWrite : Nat → List Nat)
    (segments : List (Nat × Nat × Nat))
    (hconv : ∀ v, (convWrite v).length = valueSize) :
    (AATLookup.writeFormat2 valueSize convWrite segments).length =
      2 + AATLookup.BIN_SEARCH_HEADER_SIZE +
        (segments.length + 1) * (valueSize + 4) := by
  unfold AATLookup.writeFormat2
  simp only [List.length_append, List.length_flatten, beBytes_length,
             List.length_replicate, List.map_map,
             writeBinSearchHeader_length]
  rw [sum_map_const_on _ _ (valueSize + 4)
    (fun x _ => by simp [beBytes_length, hconv]; omega)]
  unfold AATLookup.BIN_SEARCH_HEADER_SIZE
  ring

theorem writeFormat6_length (valueSize : Nat) (convWrite : Nat → List Nat)
    (values : List (Nat × Nat))
    (hconv : ∀ v, (convWrite v).length = valueSize) :
    (AATLookup.writeFormat6 valueSize convWrite values).length =
      2 + AATLookup.BIN_SEARCH_HEADER_SIZE +
        (values.length + 1) * (valueSize + 2) := by
  unfold AATLookup.writeFormat6
  simp only [List.length_append, List.length_flatten, beBytes_length,
             List.length_replicate, List.map_map,
             writeBinSearchHeader_length]
  rw [sum_map_const_on _ _ (valueSize + 2)
    (fun x _ => by simp [beBytes_length, hconv]; omega)]
  unfold AATLookup.BIN_SEARCH_HEADER_SIZE
  ring

theorem writeFormat8_length (valueSize : Nat) (convWrite : Nat → List Nat)
    (values : List (Nat × Nat))
    (hconv : ∀ v, (convWrite v).length = valueSize) :
    (AATLookup.writeFormat8 convWrite values).length =
      6 + values.length * valueSize := by
  unfold AATLookup.writeFormat8
  simp only [List.length_append, List.length_flatten, beBytes_length,
             List.map_map]
  rw [sum_map_const_on _ _ valueSize (fun x _ => hconv x.2)]

theorem chooseMin_spec (c0 : Nat × Nat) (cs : List (Nat × Nat)) :
    ∃ m, AATLookup.chooseMin (c0 :: cs) = some m ∧ m ∈ c0 :: cs ∧
      ∀ x ∈ c0 :: cs, m.1 < x.1 ∨ (m.1 = x.1 ∧ m.2 ≤ x.2) := by
  induction cs generalizing c0 with
  | nil =>
    refine ⟨c0, rfl, by simp, ?_⟩
    intro x hx
    rw [List.mem_singleton] at hx
    subst hx
    omega
  | cons x cs ih =>
    obtain ⟨m, hmeq, hmmem, hmmin⟩ :=
      ih (if (decide (x.1 < c0.1) ||
              (decide (x.1 = c0.1) && decide (x.2 < c0.2))) = true
          then x else c0)
    refine ⟨m, ?_, ?_, ?_⟩
    · rw [← hmeq]
      rfl
    · have hstep :
          (if (decide (x.1 < c0.1) ||
               (decide (x.1 = c0.1) && decide (x.2 < c0.2))) = true
           then x else c0) = x ∨
          (if (decide (x.1 < c0.1) ||
               (decide (x.1 = c0.1) && decide (x.2 < c0.2))) = true
           then x else c0) = c0 := by
        split_ifs <;> simp
      rcases List.mem_cons.mp hmmem with heq | hmem
      · rcases hstep with h | h <;> rw [h] at heq <;> simp [heq]
      · simp [hmem]
    · have hmstep := hmmin _ (List.mem_cons_self _ _)
      have hlex :
          (m.1 < x.1 ∨ (m.1 = x.1 ∧ m.2 ≤ x.2)) ∧
          (m.1 < c0.1 ∨ (m.1 = c0.1 ∧ m.2 ≤ c0.2)) := by
        cases hb : (decide (x.1 < c0.1) ||
            (decide (x.1 = c0.1) && decide (x.2 < c0.2))) with
        | true =>
          rw [if_pos hb] at hmstep
          simp only [Bool.or_eq_true, Bool.and_eq_true,
                     decide_eq_true_eq] at hb
          exact ⟨hmstep, by omega⟩
        | false =>
          rw [if_neg (by rw [hb]; exact Bool.false_ne_true)] at hmstep
          have hb2 : ¬(x.1 < c0.1 ∨ (x.1 = c0.1 ∧ x.2 < c0.2)) := by
            intro hcon
            have hc : (decide (x.1 < c0.1) ||
                (decide (x.1 = c0.1) && decide (x.2 < c0.2))) = true := by
              simp only [Bool.or_eq_true, Bool.and_eq_true,
                         decide_eq_true_eq]
              exact hcon
            rw [hb] at hc
            exact Bool.false_ne_true hc
          push_neg at hb2
          exact ⟨by omega, hmstep⟩
      intro y hy
      rcases List.mem_cons.mp hy with rfl | hy2
      · exact hlex.2
      · rcases List.mem_cons.mp hy2 with rfl | hy3
        · exact hlex.1
        · exact hmmin y (by simp [hy3])

end OtConv

namespace OtConv

theorem chooseMin_spec_ne (l : List (Nat × Nat)) (hne : l ≠ []) :
    ∃ m, AATLookup.chooseMin l = some m ∧ m ∈ l ∧
      ∀ x ∈ l, m.1 < x.1 ∨ (m.1 = x.1 ∧ m.2 ≤ x.2) := by
  cases l with
  | nil => exact absurd rfl hne
  | cons c cs => exact chooseMin_spec c cs

/-- C1: for every non-empty mapping (as the sorted (glyphID, value) item
list), AATLookup.write evaluates exactly the candidate formats 0, 2, 6
and 8 (never 4; every candidate's format is one of these), computes each
candidate's byte size without emitting bytes, emits the candidate with
the smallest size breaking ties by lowest format number (the chosen
(size, format) is a candidate and is lexicographically minimal among
all candidates), and the emitted bytes' length equals the claimed size
(the internal size assertion passes), so encoding is a deterministic
function of the input; in particular the mapping of the 4 contiguous
glyph IDs 10..13 to the 2-byte value 5 is encoded in format 8 occupying
6 + 4*valueSize = 14 bytes. -/
theorem aatlookup_write_minimal_format_selection
    (numGlyphs valueSize : Nat) (convWrite : Nat → List Nat)
    (v0 : Nat × Nat) (rest : List (Nat × Nat))
    (hconv : ∀ v, (convWrite v).length = valueSize) :
    ∃ cands dataSize lookupFormat data,
      AATLookup.candidates numGlyphs valueSize (v0 :: rest) =
        Except.ok cands ∧
      AATLookup.write numGlyphs valueSize convWrite (v0 :: rest) =
        some (dataSize, lookupFormat, data) ∧
      data.length = dataSize ∧
      (∀ cand ∈ cands,
        cand.2 = 0 ∨ cand.2 = 2 ∨ cand.2 = 6 ∨ cand.2 = 8) ∧
      (dataSize, lookupFormat) ∈ cands ∧
      (∀ cand ∈ cands,
        dataSize < cand.1 ∨ (dataSize = cand.1 ∧ lookupFormat ≤ cand.2)) ∧
      AATLookup.write 14 2 (beBytes 2) [(10, 5), (11, 5), (12, 5), (13, 5)] =
        some (6 + 4 * 2, 8, [0, 8, 0, 10, 0, 4, 0, 5, 0, 5, 0, 5, 0, 5]) := by
  have hb2 : AATLookup.buildFormat2 valueSize (v0 :: rest) =
      .ok (some (2 + AATLookup.BIN_SEARCH_HEADER_SIZE +
        ((AATLookup.segmentsOf v0 rest).length + 1) * (valueSize + 4),
        2)) := rfl
  have hb8 : AATLookup.buildFormat8 valueSize (v0 :: rest) =
      .ok (if (v0 :: rest).length = (rest.getLastD v0).1 - v0.1 + 1
           then some (6 + (v0 :: rest).length * valueSize, 8) else none) := by
    unfold AATLookup.buildFormat8
    dsimp only
    by_cases h : (v0 :: rest).length = (rest.getLastD v0).1 - v0.1 + 1
    · rw [if_pos h, if_pos h]
    · rw [if_neg h, if_neg h]
  have hcands : AATLookup.candidates numGlyphs valueSize (v0 :: rest) =
      .ok ([AATLookup.buildFormat0 numGlyphs valueSize (v0 :: rest),
            some (2 + AATLookup.BIN_SEARCH_HEADER_SIZE +
              ((AATLookup.segmentsOf v0 rest).length + 1) * (valueSize + 4),
              2),
            AATLookup.buildFormat6 valueSize (v0 :: rest),
            if (v0 :: rest).length = (rest.getLastD v0).1 - v0.1 + 1
            then some (6 + (v0 :: rest).length * valueSize, 8)
            else none].filterMap id) := by
    unfold AATLookup.candidates
    rw [hb2]
    simp only [hb8]
    rfl
  set cands := [AATLookup.buildFormat0 numGlyphs valueSize (v0 :: rest),
            some (2 + AATLookup.BIN_SEARCH_HEADER_SIZE +
              ((AATLookup.segmentsOf v0 rest).length + 1) * (valueSize + 4),
              2),
            AATLookup.buildFormat6 valueSize (v0 :: rest),
            if (v0 :: rest).length = (rest.getLastD v0).1 - v0.1 + 1
            then some (6 + (v0 :: rest).length * valueSize, 8)
            else none].filterMap id with hcandsdef
  have hchar : ∀ cand ∈ cands,
      ((v0 :: rest).length = numGlyphs ∧
        cand = (2 + numGlyphs * valueSize, 0)) ∨
      cand = (2 + AATLookup.BIN_SEARCH_HEADER_SIZE +
        ((AATLookup.segmentsOf v0 rest).length + 1) * (valueSize + 4), 2) ∨
      cand = (2 + AATLookup.BIN_SEARCH_HEADER_SIZE +
        ((v0 :: rest).length + 1) * (valueSize + 2), 6) ∨
      ((v0 :: rest).length = (rest.getLastD v0).1 - v0.1 + 1 ∧
        cand = (6 + (v0 :: rest).length * valueSize, 8)) := by
    intro cand hcand
    rw [hcandsdef] at hcand
    rw [List.mem_filterMap] at hcand
    obtain ⟨a, ha, haid⟩ := hcand
    simp only [id] at haid
    subst haid
    simp only [List.mem_cons, List.not_mem_nil, or_false] at ha
    rcases ha with ha | ha | ha | ha
    · left
      unfold AATLookup.buildFormat0 at ha
      split_ifs at ha with h
      exact ⟨h, by simpa using ha⟩
    · right; left
      simpa using ha
    · right; right; left
      unfold AATLookup.buildFormat6 at ha
      simpa using ha
    · right; right; right
      split_ifs at ha with h
      exact ⟨h, by simpa using ha⟩
  have hc6mem : (2 + AATLookup.BIN_SEARCH_HEADER_SIZE +
      ((v0 :: rest).length + 1) * (valueSize + 2), 6) ∈ cands := by
    rw [hcandsdef, List.mem_filterMap]
    refine ⟨some (2 + AATLookup.BIN_SEARCH_HEADER_SIZE +
      ((v0 :: rest).length + 1) * (valueSize + 2), 6), ?_, rfl⟩
    simp [AATLookup.buildFormat6]
  obtain ⟨m, hmeq, hmmem, hmmin⟩ :=
    chooseMin_spec_ne cands (List.ne_nil_of_mem hc6mem)
  obtain ⟨ds, lf⟩ := m
  have hemit : (AATLookup.writeChosen valueSize convWrite (v0 :: rest)
      lf).length = ds := by
    rcases hchar (ds, lf) hmmem with ⟨hlen, hpair⟩ | hpair | hpair |
        ⟨hlen, hpair⟩
    · injection hpair with h1 h2
      subst h1
      subst h2
      show (AATLookup.writeFormat0 convWrite (v0 :: rest)).length = _
      rw [writeFormat0_length valueSize convWrite _ hconv, hlen]
    · injection hpair with h1 h2
      subst h1
      subst h2
      show (AATLookup.writeFormat2 valueSize convWrite
        (AATLookup.segmentsOf v0 rest)).length = _
      rw [writeFormat2_length valueSize convWrite _ hconv]
    · injection hpair with h1 h2
      subst h1
      subst h2
      show (AATLookup.writeFormat6 valueSize convWrite
        (v0 :: rest)).length = _
      rw [writeFormat6_length valueSize convWrite _ hconv]
    · injection hpair with h1 h2
      subst h1
      subst h2
      show (AATLookup.writeFormat8 convWrite (v0 :: rest)).length = _
      rw [writeFormat8_length valueSize convWrite _ hconv]
  refine ⟨cands, ds, lf,
    AATLookup.writeChosen valueSize convWrite (v0 :: rest) lf,
    hcands, ?_, hemit, ?_, hmmem, hmmin, by decide⟩
  · unfold AATLookup.write
    rw [hcands]
    dsimp only
    rw [hmeq]
    dsimp only
    rw [if_pos hemit]
  · intro cand hcand
    rcases hchar cand hcand with ⟨-, rfl⟩ | rfl | rfl | ⟨-, rfl⟩ <;> simp

theorem aatlookup_write_minimal_format_selection_witness :
    AATLookup.write 14 2 (beBytes 2) [(10, 5), (11, 5), (12, 5), (13, 5)] =
      some (6 + 4 * 2, 8, [0, 8, 0, 10, 0, 4, 0, 5, 0, 5, 0, 5, 0, 5]) := by
  obtain ⟨-, -, -, -, -, -, -, -, -, -, h⟩ :=
    aatlookup_write_minimal_format_selection 14 2 (beBytes 2) (10, 5)
      [(11, 5), (12, 5), (13, 5)] (fun v => beBytes_length 2 v)
  exact h

end OtConv

namespace OtConv

theorem lor_mod_two_pow_zero {a b s : Nat} (ha : a % 2 ^ s = 0)
    (hb : b % 2 ^ s = 0) : (a ||| b) % 2 ^ s = 0 := by
  rw [← Nat.and_pow_two_sub_one_eq_mod] at ha hb ⊢
  apply Nat.eq_of_testBit_eq
  intro i
  have hai : (Nat.testBit a i && Nat.testBit (2 ^ s - 1) i) = false := by
    have h0 := congrArg (fun x => Nat.testBit x i) ha
    simp only [Nat.testBit_and, Nat.zero_testBit] at h0
    exact h0
  have hbi : (Nat.testBit b i && Nat.testBit (2 ^ s - 1) i) = false := by
    have h0 := congrArg (fun x => Nat.testBit x i) hb
    simp only [Nat.testBit_and, Nat.zero_testBit] at h0
    exact h0
  simp only [Nat.testBit_and, Nat.testBit_or, Nat.zero_testBit]
  cases hta : Nat.testBit a i <;> cases htb : Nat.testBit b i <;>
    cases htm : Nat.testBit (2 ^ s - 1) i <;> simp_all

theorem delta_digit_lt (nBits : Nat) (v : Int) :
    (v % ((2 : Int) ^ nBits)).toNat < 2 ^ nBits := by
  have h1 : 0 ≤ v % ((2 : Int) ^ nBits) :=
    Int.emod_nonneg v (by positivity)
  have h2 : v % ((2 : Int) ^ nBits) < (2 : Int) ^ nBits :=
    Int.emod_lt_of_pos v (by positivity)
  have h3 : ((2 : Int) ^ nBits) = ((2 ^ nBits : Nat) : Int) := by
    push_cast
    ring
  rw [h3] at h2
  omega

theorem packGroup_lt (nBits : Nat) :
    ∀ (g : List Int) (s : Nat), nBits * g.length ≤ s →
      Delta.packGroup nBits g s < 2 ^ s := by
  intro g
  induction g with
  | nil =>
    intro s _
    simpa [Delta.packGroup] using Nat.two_pow_pos s
  | cons v g ih =>
    intro s hs
    rw [List.length_cons, Nat.mul_succ] at hs
    have htail : nBits * g.length ≤ s - nBits := by omega
    have hp2 : Delta.packGroup nBits g (s - nBits) < 2 ^ (s - nBits) :=
      ih _ htail
    have hd : (v % ((2 : Int) ^ nBits)).toNat < 2 ^ nBits :=
      delta_digit_lt nBits v
    have h2s : (2 : Nat) ^ s = 2 ^ nBits * 2 ^ (s - nBits) := by
      rw [← pow_add]
      congr 1
      omega
    show ((v % ((2 : Int) ^ nBits)).toNat <<< (s - nBits)) |||
        Delta.packGroup nBits g (s - nBits) < 2 ^ s
    rw [Nat.shiftLeft_eq,
        lor_eq_add_of_disjoint (Nat.mul_mod_left _ _) hp2]
    calc (v % ((2 : Int) ^ nBits)).toNat * 2 ^ (s - nBits) +
          Delta.packGroup nBits g (s - nBits)
        < ((v % ((2 : Int) ^ nBits)).toNat + 1) * 2 ^ (s - nBits) := by
          rw [Nat.add_mul, Nat.one_mul]
          omega
      _ ≤ 2 ^ nBits * 2 ^ (s - nBits) :=
          Nat.mul_le_mul_right _ (by omega)
      _ = 2 ^ s := h2s.symm

theorem packGroup_cons_eq (nBits : Nat) (v : Int) (g : List Int) (s : Nat)
    (hg : nBits * g.length ≤ s - nBits) :
    Delta.packGroup nBits (v :: g) s =
      (v % ((2 : Int) ^ nBits)).toNat * 2 ^ (s - nBits) +
        Delta.packGroup nBits g (s - nBits) := by
  show ((v % ((2 : Int) ^ nBits)).toNat <<< (s - nBits)) |||
      Delta.packGroup nBits g (s - nBits) = _
  rw [Nat.shiftLeft_eq,
      lor_eq_add_of_disjoint (Nat.mul_mod_left _ _)
        (packGroup_lt nBits g _ hg)]

theorem decodeSigned_digit (nBits : Nat) (hpos : 0 < nBits) (v : Int)
    (hlo : -((2 ^ (nBits - 1) : Nat) : Int) ≤ v)
    (hhi : v < ((2 ^ (nBits - 1) : Nat) : Int)) :
    Delta.decodeSigned nBits ((v % ((2 : Int) ^ nBits)).toNat) = v := by
  have hsplitN : (2 : Nat) ^ nBits = 2 ^ (nBits - 1) * 2 := by
    rw [← pow_succ]
    congr 1
    omega
  have hA : (0 : Int) < (2 : Int) ^ (nBits - 1) := by positivity
  have hsplitZ : (2 : Int) ^ nBits = (2 : Int) ^ (nBits - 1) * 2 := by
    exact_mod_cast hsplitN
  have hbc : ((2 ^ (nBits - 1) : Nat) : Int) = (2 : Int) ^ (nBits - 1) := by
    push_cast
    ring
  have hBc : ((2 ^ nBits : Nat) : Int) = (2 : Int) ^ nBits := by
    push_cast
    ring
  push_cast at hlo hhi
  rcases Int.lt_or_le v 0 with hneg | hnn
  · have hmod : v % ((2 : Int) ^ nBits) = v + (2 : Int) ^ nBits := by
      have h1 : (v + (2 : Int) ^ nBits * 1) % ((2 : Int) ^ nBits) =
          v % ((2 : Int) ^ nBits) := Int.add_mul_emod_self_left ..
      rw [Int.mul_one] at h1
      rw [← h1]
      apply Int.emod_eq_of_lt
      · omega
      · omega
    have hd1 : 2 ^ (nBits - 1) ≤ (v % ((2 : Int) ^ nBits)).toNat := by
      rw [hmod]
      omega
    have hd2 : (v % ((2 : Int) ^ nBits)).toNat < 2 ^ (nBits - 1) * 2 := by
      rw [hmod]
      omega
    have hbit : Nat.testBit ((v % ((2 : Int) ^ nBits)).toNat)
        (nBits - 1) = true := by
      rw [Nat.testBit_to_div_mod]
      have hdiv : (v % ((2 : Int) ^ nBits)).toNat / 2 ^ (nBits - 1) = 1 :=
        Nat.div_eq_of_lt_le (by omega) (by omega)
      rw [hdiv]
      rfl
    unfold Delta.decodeSigned
    rw [Nat.one_shiftLeft, Nat.and_two_pow, hbit,
        if_pos (by simpa using (Nat.two_pow_pos (nBits - 1)).ne'),
        Nat.one_shiftLeft, hmod]
    push_cast [Int.toNat_of_nonneg (show (0 : Int) ≤ v + 2 ^ nBits by omega)]
    ring
  · have hmod : v % ((2 : Int) ^ nBits) = v := by
      apply Int.emod_eq_of_lt hnn
      omega
    have hd2 : (v % ((2 : Int) ^ nBits)).toNat < 2 ^ (nBits - 1) := by
      rw [hmod]
      omega
    have hbit : Nat.testBit ((v % ((2 : Int) ^ nBits)).toNat)
        (nBits - 1) = false := Nat.testBit_lt_two_pow hd2
    unfold Delta.decodeSigned
    rw [Nat.one_shiftLeft, Nat.and_two_pow, hbit,
        if_neg (by simp)]
    rw [hmod]
    exact Int.toNat_of_nonneg hnn

end OtConv

namespace OtConv

theorem packGroup_nil (nBits s : Nat) : Delta.packGroup nBits [] s = 0 := rfl

theorem packGroup_cons (nBits : Nat) (v : Int) (g : List Int) (s : Nat) :
    Delta.packGroup nBits (v :: g) s =
      ((v % ((2 : Int) ^ nBits)).toNat <<< (s - nBits)) |||
        Delta.packGroup nBits g (s - nBits) := rfl

theorem writeLoop_nil (nBits : Nat) (tmp shift : Nat) :
    Delta.writeLoop nBits [] tmp shift =
      if shift ≠ 16 then [tmp] else [] := rfl

theorem writeLoop_cons (nBits : Nat) (v : Int) (vs : List Int)
    (tmp shift : Nat) :
    Delta.writeLoop nBits (v :: vs) tmp shift =
      if shift - nBits = 0 then
        (tmp ||| ((v % ((2 : Int) ^ nBits)).toNat <<< (shift - nBits))) ::
          Delta.writeLoop nBits vs 0 16
      else
        Delta.writeLoop nBits vs
          (tmp ||| ((v % ((2 : Int) ^ nBits)).toNat <<< (shift - nBits)))
          (shift - nBits) := rfl

theorem chunksWords_nil (nBits : Nat) : Delta.chunksWords nBits [] = [] := by
  rw [Delta.chunksWords.eq_def]
  simp

theorem chunksWords_cons (nBits k : Nat) (hpos : 0 < nBits)
    (hk : nBits * k = 16) (v : Int) (vs : List Int) :
    Delta.chunksWords nBits (v :: vs) =
      Delta.packGroup nBits ((v :: vs).take k) 16 ::
        Delta.chunksWords nBits ((v :: vs).drop k) := by
  have hkdiv : 16 / nBits = k :=
    Nat.div_eq_of_eq_mul_right hpos hk.symm
  conv_lhs => rw [Delta.chunksWords.eq_def]
  simp only [List.isEmpty_cons, Bool.false_eq_true, if_false]
  rw [dif_neg (by rw [hkdiv]; rintro rfl; simp at hk), hkdiv]

theorem writeLoop_chunks (nBits k : Nat) (hpos : 0 < nBits)
    (hk : nBits * k = 16) :
    ∀ (vs : List Int) (m : Nat) (tmp : Nat), 0 < m → m ≤ k →
      tmp % 2 ^ (nBits * m) = 0 →
      Delta.writeLoop nBits vs tmp (nBits * m) =
        (match vs with
         | [] => if nBits * m ≠ 16 then [tmp] else []
         | _ :: _ =>
            (tmp ||| Delta.packGroup nBits (vs.take m) (nBits * m)) ::
              Delta.chunksWords nBits (vs.drop m)) := by
  intro vs
  induction vs with
  | nil =>
    intro m tmp _ _ _
    rfl
  | cons v vs2 ih =>
    intro m tmp hm hmk htmp
    obtain ⟨m2, rfl⟩ : ∃ m2, m = m2 + 1 := ⟨m - 1, by omega⟩
    have hshift : nBits * (m2 + 1) - nBits = nBits * m2 := by
      rw [Nat.mul_succ, Nat.add_sub_cancel]
    have hklt : nBits * m2 + nBits ≤ 16 := by
      rw [← hk, ← Nat.mul_succ]
      exact Nat.mul_le_mul_left nBits hmk
    rw [writeLoop_cons, hshift]
    by_cases hm2 : m2 = 0
    · subst hm2
      rw [if_pos (by simp)]
      show _ = (tmp ||| Delta.packGroup nBits ((v :: vs2).take (0 + 1))
          (nBits * (0 + 1))) :: Delta.chunksWords nBits ((v :: vs2).drop (0 + 1))
      have hpack : Delta.packGroup nBits ((v :: vs2).take (0 + 1))
          (nBits * (0 + 1)) = (v % ((2 : Int) ^ nBits)).toNat <<< (nBits * 0) := by
        rw [List.take_succ_cons, List.take_zero, packGroup_cons,
            packGroup_nil, Nat.or_zero, Nat.mul_one, Nat.sub_self,
            Nat.mul_zero]
      rw [hpack, List.drop_succ_cons, List.drop_zero]
      congr 1
      cases vs2 with
      | nil =>
        rw [chunksWords_nil, writeLoop_nil, if_neg (by omega)]
      | cons w ws =>
        have hrec := ih k 0 (by omega) (le_refl k) (by simp)
        rw [show (16 : Nat) = nBits * k from hk.symm, hrec,
            chunksWords_cons nBits k hpos hk w ws]
        simp only
        rw [Nat.zero_or, hk]
    · rw [if_neg (Nat.mul_ne_zero (by omega) hm2)]
      have htmp2 : (tmp |||
          ((v % ((2 : Int) ^ nBits)).toNat <<< (nBits * m2))) %
          2 ^ (nBits * m2) = 0 := by
        apply lor_mod_two_pow_zero
        · have hdvd : (2 : Nat) ^ (nBits * m2) ∣ 2 ^ (nBits * (m2 + 1)) :=
            pow_dvd_pow 2 (by rw [Nat.mul_succ]; omega)
          calc tmp % 2 ^ (nBits * m2)
              = tmp % 2 ^ (nBits * (m2 + 1)) % 2 ^ (nBits * m2) :=
                (Nat.mod_mod_of_dvd tmp hdvd).symm
            _ = 0 := by rw [htmp]; simp
        · rw [Nat.shiftLeft_eq]
          exact Nat.mul_mod_left _ _
      have hrec := ih m2 (tmp |||
        ((v % ((2 : Int) ^ nBits)).toNat <<< (nBits * m2)))
        (by omega) (by omega) htmp2
      rw [hrec]
      cases vs2 with
      | nil =>
        simp only
        rw [if_pos (by omega), List.take_succ_cons, List.take_nil,
            List.drop_succ_cons, List.drop_nil, chunksWords_nil,
            packGroup_cons, hshift, packGroup_nil, Nat.or_zero]
      | cons w ws =>
        simp only
        rw [List.take_succ_cons, List.drop_succ_cons, packGroup_cons,
            hshift, Nat.or_assoc]

end OtConv

namespace OtConv

theorem readLoop_zero (nBits : Nat) (words : List Nat) (tmp shift : Nat) :
    Delta.readLoop nBits 0 words tmp shift = [] := rfl

theorem readLoop_succ_pos (nBits n : Nat) (words : List Nat)
    (tmp shift : Nat) (h : shift ≠ 0) :
    Delta.readLoop nBits (n + 1) words tmp shift =
      Delta.decodeSigned nBits
        ((tmp >>> (shift - nBits)) &&& ((1 <<< nBits) - 1)) ::
        Delta.readLoop nBits n words tmp (shift - nBits) := by
  conv_lhs => rw [Delta.readLoop.eq_def]
  dsimp only
  rw [if_neg h]

theorem readLoop_refill (nBits n : Nat) (w : Nat) (ws : List Nat)
    (tmp : Nat) :
    Delta.readLoop nBits (n + 1) (w :: ws) tmp 0 =
      Delta.readLoop nBits (n + 1) ws w 16 := by
  conv_lhs => rw [Delta.readLoop.eq_def]
  conv_rhs => rw [Delta.readLoop.eq_def]
  dsimp only
  rw [if_pos rfl, if_neg (show ¬(16 = 0) from by omega)]

theorem readLoop_packGroup (nBits k : Nat) (hpos : 0 < nBits)
    (hk : nBits * k = 16) :
    ∀ (g : List Int) (m : Nat) (w : Nat) (n2 : Nat) (words : List Nat),
      g.length ≤ m → m ≤ k → (n2 = 0 ∨ g.length = m) →
      (∀ v ∈ g, -((2 ^ (nBits - 1) : Nat) : Int) ≤ v ∧
        v < ((2 ^ (nBits - 1) : Nat) : Int)) →
      w % 2 ^ (nBits * m) = Delta.packGroup nBits g (nBits * m) →
      Delta.readLoop nBits (g.length + n2) words w (nBits * m) =
        g ++ Delta.readLoop nBits n2 words w 0 := by
  intro g
  induction g with
  | nil =>
    intro m w n2 words _ _ hcase _ _
    rcases hcase with rfl | hm0
    · simp [readLoop_zero]
    · obtain rfl : m = 0 := by
        simpa using hm0.symm
      simp
  | cons v g2 ih =>
    intro m w n2 words hgm hmk hcase hrange hw
    obtain ⟨m2, rfl⟩ : ∃ m2, m = m2 + 1 :=
      ⟨m - 1, by simp at hgm; omega⟩
    have hshift : nBits * (m2 + 1) - nBits = nBits * m2 := by
      rw [Nat.mul_succ, Nat.add_sub_cancel]
    have hg2m : g2.length ≤ m2 := by
      simp at hgm
      omega
    have hklt : nBits * m2 + nBits ≤ 16 := by
      rw [← hk, ← Nat.mul_succ]
      exact Nat.mul_le_mul_left nBits hmk
    have hp2lt : Delta.packGroup nBits g2 (nBits * m2) < 2 ^ (nBits * m2) :=
      packGroup_lt nBits g2 _ (Nat.mul_le_mul_left nBits hg2m)
    have hwadd : w % 2 ^ (nBits * (m2 + 1)) =
        (v % ((2 : Int) ^ nBits)).toNat * 2 ^ (nBits * m2) +
          Delta.packGroup nBits g2 (nBits * m2) := by
      rw [hw, packGroup_cons_eq nBits v g2 _
        (by rw [hshift]; exact Nat.mul_le_mul_left nBits hg2m), hshift]
    have hvalue : (w >>> (nBits * m2)) &&& ((1 <<< nBits) - 1) =
        (v % ((2 : Int) ^ nBits)).toNat := by
      rw [Nat.one_shiftLeft, Nat.shiftRight_eq_div_pow,
          Nat.and_pow_two_sub_one_eq_mod,
          Nat.div_mod_eq_mod_mul_div, ← pow_add,
          show nBits * m2 + nBits = nBits * (m2 + 1) from by
            rw [Nat.mul_succ],
          hwadd, Nat.mul_comm ((v % ((2 : Int) ^ nBits)).toNat),
          Nat.mul_add_div (Nat.two_pow_pos _),
          Nat.div_eq_of_lt hp2lt, Nat.add_zero]
    have hwtail : w % 2 ^ (nBits * m2) =
        Delta.packGroup nBits g2 (nBits * m2) := by
      have hdvd : (2 : Nat) ^ (nBits * m2) ∣ 2 ^ (nBits * (m2 + 1)) :=
        pow_dvd_pow 2 (by rw [Nat.mul_succ]; omega)
      calc w % 2 ^ (nBits * m2)
          = w % 2 ^ (nBits * (m2 + 1)) % 2 ^ (nBits * m2) :=
            (Nat.mod_mod_of_dvd w hdvd).symm
        _ = ((v % ((2 : Int) ^ nBits)).toNat * 2 ^ (nBits * m2) +
              Delta.packGroup nBits g2 (nBits * m2)) % 2 ^ (nBits * m2) := by
            rw [hwadd]
        _ = Delta.packGroup nBits g2 (nBits * m2) := by
            rw [Nat.mul_comm ((v % ((2 : Int) ^ nBits)).toNat),
                Nat.mul_add_mod, Nat.mod_eq_of_lt hp2lt]
    have hlen : (v :: g2).length + n2 = (g2.length + n2) + 1 := by
      simp
      omega
    rw [hlen, readLoop_succ_pos nBits _ words w _
      (by positivity), hshift, hvalue,
      decodeSigned_digit nBits hpos v (hrange v (by simp)).1
        (hrange v (by simp)).2,
      ih m2 w n2 words hg2m (by omega)
        (by rcases hcase with h | h
            · exact Or.inl h
            · right
              simp at h
              omega)
        (fun x hx => hrange x (by simp [hx])) hwtail]
    rfl

end OtConv

namespace OtConv

theorem writeLoop_eq_chunks (nBits k : Nat) (hpos : 0 < nBits)
    (hk : nBits * k = 16) (values : List Int) :
    Delta.writeLoop nBits values 0 16 = Delta.chunksWords nBits values := by
  cases values with
  | nil => rw [chunksWords_nil, writeLoop_nil, if_neg (by omega)]
  | cons v vs =>
    have hkpos : 0 < k := by
      rcases Nat.eq_zero_or_pos k with rfl | h
      · simp at hk
      · exact h
    have h := writeLoop_chunks nBits k hpos hk (v :: vs) k 0 hkpos
      (le_refl k) (by simp)
    rw [show (16 : Nat) = nBits * k from hk.symm, h,
        chunksWords_cons nBits k hpos hk v vs]
    simp only
    rw [Nat.zero_or, hk]

theorem readLoop_chunks_full (nBits k : Nat) (hpos : 0 < nBits)
    (hk : nBits * k = 16) :
    ∀ (N : Nat) (values : List Int) (tmp : Nat), values.length ≤ N →
      (∀ v ∈ values, -((2 ^ (nBits - 1) : Nat) : Int) ≤ v ∧
        v < ((2 ^ (nBits - 1) : Nat) : Int)) →
      Delta.readLoop nBits values.length (Delta.chunksWords nBits values)
        tmp 0 = values := by
  intro N
  induction N with
  | zero =>
    intro values tmp hlen _
    obtain rfl : values = [] := List.eq_nil_of_length_eq_zero (by omega)
    rfl
  | succ N ih =>
    intro values tmp hlen hrange
    cases values with
    | nil => rfl
    | cons v vs =>
      have hkpos : 0 < k := by
        rcases Nat.eq_zero_or_pos k with rfl | h
        · simp at hk
        · exact h
      rw [chunksWords_cons nBits k hpos hk v vs,
          show (v :: vs).length = ((v :: vs).length - 1) + 1 from by simp,
          readLoop_refill]
      have hsum : ((v :: vs).take k).length + ((v :: vs).drop k).length =
          (v :: vs).length := by
        simp only [List.length_take, List.length_drop, List.length_cons]
        omega
      have hgle : ((v :: vs).take k).length ≤ k := by
        simp only [List.length_take, List.length_cons]
        omega
      have hcase : ((v :: vs).drop k).length = 0 ∨
          ((v :: vs).take k).length = k := by
        simp only [List.length_take, List.length_drop]
        omega
      have hplt : Delta.packGroup nBits ((v :: vs).take k) 16 <
          2 ^ (nBits * k) := by
        rw [hk]
        exact packGroup_lt nBits _ 16
          (le_trans (Nat.mul_le_mul_left nBits hgle) (le_of_eq hk))
      have hw : Delta.packGroup nBits ((v :: vs).take k) (nBits * k) %
          2 ^ (nBits * k) = Delta.packGroup nBits ((v :: vs).take k)
            (nBits * k) := by
        apply Nat.mod_eq_of_lt
        rw [hk]
        exact packGroup_lt nBits _ 16
          (le_trans (Nat.mul_le_mul_left nBits hgle) (le_of_eq hk))
      have hcnt : ((v :: vs).length - 1) + 1 =
          ((v :: vs).take k).length + ((v :: vs).drop k).length := by
        simp only [List.length_cons] at hsum ⊢
        omega
      rw [hcnt]
      conv_lhs => rw [show (16 : Nat) = nBits * k from hk.symm]
      rw [readLoop_packGroup nBits k hpos hk ((v :: vs).take k) k _ _ _
        hgle (le_refl k) hcase
        (fun x hx => hrange x (List.mem_of_mem_take hx)) hw]
      have hdlen : ((v :: vs).drop k).length ≤ N := by
        simp only [List.length_drop, List.length_cons]
        simp only [List.length_cons] at hlen
        omega
      rw [ih ((v :: vs).drop k) _ hdlen
        (fun x hx => hrange x (List.mem_of_mem_drop hx))]
      exact List.take_append_drop k (v :: vs)

end OtConv

namespace OtConv

/-- C4: for every DeltaFormat in {1,2,3} with n = 2^DeltaFormat bits per
value, and every sequence of exactly EndSize - StartSize + 1 integers
each in [-2^(n-1), 2^(n-1)-1], DeltaValue.read applied to the words
emitted by DeltaValue.write (values packed most-significant-bit-first
into 16-bit words, two's-complement over the n-bit field, final partial
word zero-padded) returns the original sequence. -/
theorem deltavalue_write_read_roundtrip
    (startSize endSize deltaFormat : Nat) (values : List Int)
    (hfmt : deltaFormat = 1 ∨ deltaFormat = 2 ∨ deltaFormat = 3)
    (hlen : values.length = endSize - startSize + 1)
    (hrange : ∀ v ∈ values,
      -((2 ^ (2 ^ deltaFormat - 1) : Nat) : Int) ≤ v ∧
        v < ((2 ^ (2 ^ deltaFormat - 1) : Nat) : Int)) :
    ∃ words, Delta.write startSize endSize deltaFormat values = some words ∧
      Delta.read startSize endSize deltaFormat words = some values := by
  obtain ⟨k, hpos, hk⟩ : ∃ k, 0 < (1 <<< deltaFormat) ∧
      (1 <<< deltaFormat) * k = 16 := by
    rcases hfmt with rfl | rfl | rfl
    · exact ⟨8, by decide, by decide⟩
    · exact ⟨4, by decide, by decide⟩
    · exact ⟨2, by decide, by decide⟩
  have hnb : (1 <<< deltaFormat) = 2 ^ deltaFormat := Nat.one_shiftLeft _
  refine ⟨Delta.chunksWords (1 <<< deltaFormat) values, ?_, ?_⟩
  · unfold Delta.write
    rw [if_pos hfmt, if_pos hlen,
        writeLoop_eq_chunks (1 <<< deltaFormat) k hpos hk values]
  · unfold Delta.read
    rw [if_pos hfmt, ← hlen,
        readLoop_chunks_full (1 <<< deltaFormat) k hpos hk values.length
          values 0 (le_refl _)
          (by intro v hv; rw [hnb]; exact hrange v hv)]

/-- Closed instance of the DeltaValue round-trip: DeltaFormat 1 (2-bit
fields), one value -1, encoded as the single zero-padded word 0xC000 and
decoded back. -/
theorem deltavalue_write_read_roundtrip_witness :
    ∃ words, Delta.write 0 0 1 [(-1 : Int)] = some words ∧
      Delta.read 0 0 1 words = some [(-1 : Int)] :=
  deltavalue_write_read_roundtrip 0 0 1 [(-1 : Int)]
    (by decide) (by decide) (by decide)

end OtConv
